import Mathlib

/-!
# Shape detector: a shallow embedding of `src/main.ts`

This file embeds the image-analysis pipeline of the shape detector
(`ShapeDetector.detectShapes` and its helpers) and proves properties of it.

Modelling conventions:

* JavaScript numbers are idealized as exact arithmetic: the discrete stages
  (grayscale intensities, histograms, Otsu weights and means, pixel
  coordinates) only ever hold integral or rational values and are modelled
  with `ℕ`, `ℤ` and `ℚ`; the geometric stage (distances, compactness) is
  modelled over `ℝ`, with `Math.PI` as `Real.pi` and `Math.sqrt` as
  `Real.sqrt`.  Decimal literals of the source (`0.299`, `0.95`, `0.042`,
  `1.2`, …) are taken as the exact rationals they denote.
* A float division `0/0` (NaN) is modelled by `Option`: `none` stands for
  NaN.  The only place the source can produce NaN from in-range data is
  `pointLineDistance` when the two line endpoints coincide; a NaN distance
  compares false with `>`, which `Option.none` mirrors by never updating
  the running maximum.
* The two source loops that need not terminate (the Moore tracing loop and
  the recursion of `rdp`, see below) are modelled with an explicit fuel
  that over-approximates the number of distinct loop states; `none` from
  the fueled function means the source loop diverges.
* `performance.now()` is an ambient clock: the elapsed time is passed to
  `detectShapes` as an explicit argument `elapsed`, the only part of the
  result not determined by the pixel input.
* Mutable arrays (`visited`, queues, the accumulating `shapes` array) are
  threaded as explicit state; the string-keyed `Set` of blob pixels
  (`"x,y"` keys, an injective encoding of coordinate pairs) is a
  `Finset (ℤ × ℤ)`.
-/

namespace ShapeDet

/-- A pixel coordinate `(x, y)`, integer-valued as produced by flood fill
and contour tracing. -/
abbrev Pix : Type := ℤ × ℤ

/-- The fields of the `ImageData` object that `detectShapes` reads: the flat
RGBA byte buffer and the declared dimensions.  The `data.length = 4·w·h`
well-formedness of genuine canvas `ImageData` is *not* imposed, so malformed
inputs are representable. -/
structure ImageData where
  data : List ℕ
  width : ℕ
  height : ℕ

/-! ## 1.a Grayscale conversion (`toGrayscale`) -/

/-- Round half to even, the rounding a JS engine performs when storing a
number into a `Uint8ClampedArray`. -/
def roundHalfEven (q : ℚ) : ℤ :=
  if q - q.floor < 1/2 then q.floor
  else if (1:ℚ)/2 < q - q.floor then q.floor + 1
  else if q.floor % 2 = 0 then q.floor else q.floor + 1

/-- A `Uint8ClampedArray` store: clamp to `[0, 255]`, round half to even. -/
def clampByte (q : ℚ) : ℕ :=
  if q ≤ 0 then 0 else if 255 ≤ q then 255 else (roundHalfEven q).toNat

/-- Grayscale stage.  The source walks `i` over `data` in steps of 4,
writing `grayData[j] = 0.299·r + 0.587·g + 0.114·b`.  `grayData` is a
zero-initialized `Uint8ClampedArray(width*height)`: entries the loop never
writes stay 0, writes past the end are dropped, and a read past the end of
`data` yields `undefined`, making the stored value NaN, which the clamped
store turns into 0.  Hence entry `j` is the rounded luma when all three
reads `4j, 4j+1, 4j+2` are in range, and 0 otherwise. -/
def toGrayscale (img : ImageData) : List ℕ :=
  (List.range (img.width * img.height)).map fun j =>
    if 4 * j + 2 < img.data.length then
      clampByte ((299 * (img.data.getD (4*j) 0 : ℚ)
        + 587 * (img.data.getD (4*j+1) 0 : ℚ)
        + 114 * (img.data.getD (4*j+2) 0 : ℚ)) / 1000)
    else 0

/-! ## 1.b Otsu binarization (`otsuBinarize`)

The source computes the histogram, then sweeps `t = 0..255` carrying the
running state `(sum, wB, maxVariance, optimalThreshold)`; `continue` on
`wB == 0` and `break` on `wF == 0` are modelled by a `stopped` flag. -/

/-- Running state of the Otsu threshold sweep. -/
structure OtsuSt where
  sum : ℚ
  wB : ℚ
  maxVariance : ℚ
  threshold : ℕ
  stopped : Bool
deriving Repr, DecidableEq

/-- Histogram lookup: `histogram[t]` after the counting loop is the number
of entries of `grayData` equal to `t`. -/
def hist (g : List ℕ) (t : ℕ) : ℕ := g.count t

/-- One iteration of the Otsu sweep at candidate threshold `t`
(`pixelCount = width*height`, `total` the summed intensity). -/
def otsuStep (pixelCount total : ℚ) (g : List ℕ) (st : OtsuSt) (t : ℕ) : OtsuSt :=
  if st.stopped then st else
  let wB := st.wB + hist g t
  if wB = 0 then { st with wB := wB } else
  let wF := pixelCount - wB
  if wF = 0 then { st with wB := wB, stopped := true } else
  let sum := st.sum + t * hist g t
  let mB := sum / wB
  let mF := (total - sum) / wF
  let variance := wB * wF * (mB - mF) * (mB - mF)
  if st.maxVariance < variance then
    { sum := sum, wB := wB, maxVariance := variance, threshold := t, stopped := false }
  else
    { st with sum := sum, wB := wB }

/-- The full sweep over `t = 0..255`. -/
def otsuSweep (g : List ℕ) (w h : ℕ) : OtsuSt :=
  (List.range 256).foldl (otsuStep (w * h : ℕ) (g.sum : ℕ) g) ⟨0, 0, 0, 0, false⟩

/-- The chosen Otsu threshold. -/
def otsuThreshold (g : List ℕ) (w h : ℕ) : ℕ := (otsuSweep g w h).threshold

/-- The binary mask: entry `(y, x)` is 1 iff `grayData[y*width+x]` is
strictly below the threshold (an out-of-range read is `undefined`, whose
`<` comparison is false, giving 0). -/
def otsuBinarize (g : List ℕ) (w h : ℕ) : List (List ℕ) :=
  (List.range h).map fun y => (List.range w).map fun x =>
    match g.get? (y * w + x) with
    | some v => if v < otsuThreshold g w h then 1 else 0
    | none => 0

/-! Closed-form descriptions of the sweep quantities, used to state the
properties of the chosen threshold. -/

/-- Background weight at threshold `t`: count of intensities `≤ t`. -/
def wBf (g : List ℕ) (t : ℕ) : ℕ := (g.filter (· ≤ t)).length

/-- Background intensity sum at threshold `t`. -/
def sumBf (g : List ℕ) (t : ℕ) : ℕ := (g.filter (· ≤ t)).sum

/-- A candidate threshold the sweep actually evaluates: in range, nonzero
background weight, nonzero foreground weight. -/
def OtsuValid (g : List ℕ) (w h : ℕ) (t : ℕ) : Prop :=
  t < 256 ∧ wBf g t ≠ 0 ∧ wBf g t ≠ w * h

instance (g : List ℕ) (w h t : ℕ) : Decidable (OtsuValid g w h t) := by
  unfold OtsuValid; infer_instance

/-- The between-class variance `wB·wF·(mB−mF)²` the sweep computes at a
valid threshold `t`. -/
def betweenVar (g : List ℕ) (w h : ℕ) (t : ℕ) : ℚ :=
  (wBf g t : ℚ) * ((w * h : ℚ) - wBf g t)
    * ((sumBf g t : ℚ) / wBf g t
       - ((g.sum : ℚ) - sumBf g t) / ((w * h : ℚ) - wBf g t))
    * ((sumBf g t : ℚ) / wBf g t
       - ((g.sum : ℚ) - sumBf g t) / ((w * h : ℚ) - wBf g t))

/-! ## 2. Contour finding (`findContours` / `floodFill`) -/

/-- Read `binaryData[y][x]` (in the pipeline both indices are always in
range; a missing entry reads as background 0). -/
def maskAt (m : List (List ℕ)) (x y : ℤ) : ℕ :=
  (m.getD y.toNat []).getD x.toNat 0

/-- The in-bounds pixel rectangle, used as the termination measure's
universe for the BFS (the `visited` grid has exactly these cells). -/
def rectC (w h : ℕ) : Finset Pix :=
  Finset.Icc ((0 : ℤ), (0 : ℤ)) ((w : ℤ) - 1, (h : ℤ) - 1)

/-- The 8 neighbor offsets `(dx, dy)` in the order of the flood fill's
nested loops (`dy` outer, `dx` inner, skipping `(0,0)`). -/
def floodOffsets : List Pix :=
  [(-1,-1), (0,-1), (1,-1), (-1,0), (1,0), (-1,1), (0,1), (1,1)]

/-- The bound-check-and-mark step of the flood fill's inner double loop:
starting from `(vis, [])`, each in-bounds unvisited foreground neighbor of
`(x, y)` is marked visited and appended to the list of newly enqueued
pixels, in offset order. -/
def floodNbrs (m : List (List ℕ)) (w h : ℕ) (x y : ℤ) (vis : Finset Pix) :
    Finset Pix × List Pix :=
  floodOffsets.foldl (fun s d =>
    let nx := x + d.1
    let ny := y + d.2
    if 0 ≤ nx ∧ nx < (w : ℤ) ∧ 0 ≤ ny ∧ ny < (h : ℤ) ∧
        maskAt m nx ny = 1 ∧ (nx, ny) ∉ s.1 then
      (insert (nx, ny) s.1, s.2 ++ [(nx, ny)])
    else s) (vis, [])

/-- Invariant of the inner neighbor fold, generalized over the running
pair `(v, acc)`: freshly marked cells and the enqueue list grow in
lockstep, so the count of unvisited in-bounds cells plus the queue length
is conserved. -/
theorem floodNbrs_fold_measure (m : List (List ℕ)) (w h : ℕ) (x y : ℤ)
    (l : List Pix) :
    ∀ (v : Finset Pix) (acc : List Pix),
      (rectC w h \ (l.foldl (fun s d =>
        let nx := x + d.1
        let ny := y + d.2
        if 0 ≤ nx ∧ nx < (w : ℤ) ∧ 0 ≤ ny ∧ ny < (h : ℤ) ∧
            maskAt m nx ny = 1 ∧ (nx, ny) ∉ s.1 then
          (insert (nx, ny) s.1, s.2 ++ [(nx, ny)])
        else s) (v, acc)).1).card
        + (l.foldl (fun s d =>
        let nx := x + d.1
        let ny := y + d.2
        if 0 ≤ nx ∧ nx < (w : ℤ) ∧ 0 ≤ ny ∧ ny < (h : ℤ) ∧
            maskAt m nx ny = 1 ∧ (nx, ny) ∉ s.1 then
          (insert (nx, ny) s.1, s.2 ++ [(nx, ny)])
        else s) (v, acc)).2.length
      = (rectC w h \ v).card + acc.length
      ∧ v ⊆ (l.foldl (fun s d =>
        let nx := x + d.1
        let ny := y + d.2
        if 0 ≤ nx ∧ nx < (w : ℤ) ∧ 0 ≤ ny ∧ ny < (h : ℤ) ∧
            maskAt m nx ny = 1 ∧ (nx, ny) ∉ s.1 then
          (insert (nx, ny) s.1, s.2 ++ [(nx, ny)])
        else s) (v, acc)).1 := by
  induction l with
  | nil => intro v acc; exact ⟨rfl, Finset.Subset.refl v⟩
  | cons d rest ih =>
    intro v acc
    simp only [List.foldl_cons]
    by_cases hc : 0 ≤ x + d.1 ∧ x + d.1 < (w : ℤ) ∧ 0 ≤ y + d.2 ∧ y + d.2 < (h : ℤ) ∧
        maskAt m (x + d.1) (y + d.2) = 1 ∧ (x + d.1, y + d.2) ∉ v
    · simp only [if_pos hc]
      have hmem : (x + d.1, y + d.2) ∈ rectC w h := by
        simp only [rectC, Finset.mem_Icc, Prod.le_def]
        exact ⟨⟨hc.1, hc.2.2.1⟩, by omega, by omega⟩
      obtain ⟨e1, e2⟩ := ih (insert (x + d.1, y + d.2) v) (acc ++ [(x + d.1, y + d.2)])
      refine ⟨?_, fun p hp => e2 (Finset.mem_insert_of_mem hp)⟩
      rw [e1, Finset.sdiff_insert, Finset.card_erase_of_mem
        (Finset.mem_sdiff.mpr ⟨hmem, hc.2.2.2.2.2⟩), List.length_append]
      have : 0 < (rectC w h \ v).card :=
        Finset.card_pos.mpr ⟨_, Finset.mem_sdiff.mpr ⟨hmem, hc.2.2.2.2.2⟩⟩
      simp only [List.length_cons, List.length_nil]
      omega
    · simp only [if_neg hc]
      exact ih v acc

/-- Specialization of the fold invariant to `floodNbrs`. -/
theorem floodNbrs_measure (m : List (List ℕ)) (w h : ℕ) (x y : ℤ)
    (vis : Finset Pix) :
    ((rectC w h \ (floodNbrs m w h x y vis).1).card
        + (floodNbrs m w h x y vis).2.length
      = (rectC w h \ vis).card)
    ∧ vis ⊆ (floodNbrs m w h x y vis).1 := by
  have := floodNbrs_fold_measure m w h x y floodOffsets vis []
  simpa [floodNbrs] using this

/-- The BFS loop of `floodFill`: dequeue a pixel, append it to the blob,
enqueue its fresh in-bounds foreground neighbors.  Terminates because the
number of unvisited in-bounds cells plus the queue length strictly
decreases (the queue only ever holds visited in-bounds cells). -/
def floodLoop (m : List (List ℕ)) (w h : ℕ) :
    List Pix → Finset Pix → List Pix → List Pix × Finset Pix
  | [], vis, acc => (acc, vis)
  | p :: rest, vis, acc =>
    let st := floodNbrs m w h p.1 p.2 vis
    floodLoop m w h (rest ++ st.2) st.1 (acc ++ [p])
termination_by q vis _ => (rectC w h \ vis).card + q.length
decreasing_by
  obtain ⟨e1, _⟩ := floodNbrs_measure m w h p.1 p.2 vis
  simp only [List.length_append, List.length_cons]
  omega

/-- `floodFill(binaryData, startX, startY, width, height, visited)`: the
seed is marked visited, then the BFS collects the blob.  Returns the blob
together with the updated `visited` set. -/
def floodFill (m : List (List ℕ)) (startX startY : ℤ) (w h : ℕ)
    (vis : Finset Pix) : List Pix × Finset Pix :=
  floodLoop m w h [(startX, startY)] (insert (startX, startY) vis) []

/-- Row-major scan order of the mask: `y` outer, `x` inner. -/
def scanOrder (w h : ℕ) : List (ℕ × ℕ) :=
  (List.range h).flatMap fun y => (List.range w).map fun x => (x, y)

/-- `findContours`: scan the mask row-major; every unvisited foreground
pixel seeds a flood fill whose blob is appended to the output list. -/
def findContours (m : List (List ℕ)) (w h : ℕ) : List (List Pix) :=
  ((scanOrder w h).foldl (fun st p =>
    if maskAt m p.1 p.2 = 1 ∧ ((p.1 : ℤ), (p.2 : ℤ)) ∉ st.1 then
      let r := floodFill m p.1 p.2 w h st.1
      (r.2, st.2 ++ [r.1])
    else st) ((∅ : Finset Pix), ([] : List (List Pix)))).2

/-! ## 3.b Moore-neighbor contour tracing (`traceContour`)

The source loop keeps a current pixel and an incoming direction index and
runs until the next position equals the start pixel, exiting early when no
neighbor lies in the blob.  This loop need not terminate (see the theorems
on claim C5), so it is modelled with fuel `8·|blob|+1`: the loop state is
a pair of a blob pixel and one of 8 direction indices, so running longer
than that repeats a state, and by determinism the source loop then cycles
forever; `none` therefore means the source loop diverges. -/

/-- The direction table: N, NE, E, SE, S, SW, W, NW (clockwise). -/
def mooreNbrs : List Pix :=
  [(0,-1), (1,-1), (1,0), (1,1), (0,1), (-1,1), (-1,0), (-1,-1)]

/-- `blob.reduce(...)`: the pixel with smallest `y`, ties broken by
smallest `x` (the fold of the source's comparator over the list). -/
def startPixel (blob : List Pix) : Pix :=
  blob.tail.foldl (fun p1 p2 =>
    if p1.2 < p2.2 then p1
    else if p2.2 < p1.2 then p2
    else if p1.1 < p2.1 then p1 else p2) blob.headI

/-- The neighbor search of one loop iteration: scan the 8 directions
clockwise starting at `(dir + 7) % 8` and return the first neighbor of
`cur` that lies in the blob, together with its direction index. -/
def traceSearch (bs : Finset Pix) (cur : Pix) (dir : ℕ) : Option (Pix × ℕ) :=
  (List.range 8).foldl (fun acc i =>
    match acc with
    | some r => some r
    | none =>
      let checkDir := (dir + 7 + i) % 8
      let off := mooreNbrs.getD checkDir (0, 0)
      let nb := (cur.1 + off.1, cur.2 + off.2)
      if nb ∈ bs then some (nb, checkDir) else none) none

/-- The fueled tracing loop: emit the current pixel, search for the next;
stop with the emitted sequence on no neighbor (open trace) or when the
next position is the start pixel (the closing point is not emitted). -/
def traceLoop (bs : Finset Pix) (start : Pix) :
    ℕ → Pix → ℕ → List Pix → Option (List Pix)
  | 0, _, _, _ => none
  | n + 1, cur, dir, acc =>
    let acc := acc ++ [cur]
    match traceSearch bs cur dir with
    | none => some acc
    | some (nxt, nd) =>
      if nxt = start then some acc
      else traceLoop bs start n nxt nd acc

set_option linter.unusedVariables false in
/-- `traceContour(blob, width, height)` (the dimensions are unused by the
source body as well). -/
def traceContour (blob : List Pix) (w h : ℕ) : Option (List Pix) :=
  traceLoop blob.toFinset (startPixel blob) (8 * blob.length + 1)
    (startPixel blob) 0 []

/-! ## 4.b Ramer-Douglas-Peucker (`rdp`) and its geometric helpers -/

/-- A geometric point `{x, y}` with JS-number (here: real) coordinates. -/
structure Point where
  x : ℝ
  y : ℝ

instance : Inhabited Point := ⟨⟨0, 0⟩⟩

noncomputable instance : DecidableEq Point :=
  fun a b => decidable_of_iff (a.x = b.x ∧ a.y = b.y) (by
    cases a; cases b; simp)

/-- A traced pixel as a geometric point. -/
def pixToPoint (p : Pix) : Point := ⟨(p.1 : ℝ), (p.2 : ℝ)⟩

/-- `pointLineDistance(p, p1, p2) = |dy·p.x − dx·p.y + p2.x·p1.y − p2.y·p1.x| / √(dy²+dx²)`.
When `p1 = p2` the denominator is zero; the numerator is then zero as
well, so the float quotient is `0/0 = NaN`, modelled as `none`.  The
source has no guard for this case. -/
noncomputable def pointLineDistance (p p1 p2 : Point) : Option ℝ :=
  let dx := p2.x - p1.x
  let dy := p2.y - p1.y
  let num := |dy * p.x - dx * p.y + p2.x * p1.y - p2.y * p1.x|
  let den := Real.sqrt (dy * dy + dx * dx)
  if den = 0 then none else some (num / den)

/-- `dist(p1, p2)`: Euclidean distance. -/
noncomputable def dist (p1 p2 : Point) : ℝ :=
  Real.sqrt ((p1.x - p2.x) ^ 2 + (p1.y - p2.y) ^ 2)

/-- The inner loop of `rdp`: fold the enumerated interior points, keeping
the running `(dmax, index)`, updating on `d > dmax`.  A NaN distance
(`none`) compares false and never updates — exactly the float behavior. -/
noncomputable def scanMax (p0 pe : Point) :
    List (ℕ × Point) → ℝ × ℕ → ℝ × ℕ
  | [], acc => acc
  | (i, p) :: rest, acc =>
    scanMax p0 pe rest
      (match pointLineDistance p p0 pe with
       | none => acc
       | some d => if acc.1 < d then (d, i) else acc)

/-- The enumerated interior `(i, points[i])`, `i = 1 .. points.length − 2`,
in the order the `for` loop visits them. -/
def interiorEnum (ps : List Point) : List (ℕ × Point) :=
  (ps.enum.drop 1).dropLast

/-- The fueled body of `rdp`.  With nonnegative `epsilon` the two
recursive calls are on strictly shorter lists and fuel `length + 1`
suffices (see `rdp_isSome`); with negative `epsilon` and all interior
distances `≤ 0` (or NaN) the source recurses on `points.slice(0)` — the
unchanged list — and never returns, which exhausts any fuel (`none`). -/
noncomputable def rdpFuel (p0d : Point) :
    ℕ → List Point → ℝ → Option (List Point)
  | 0, _, _ => none
  | n + 1, points, epsilon =>
    if points.length < 3 then some points else
    let endIdx := points.length - 1
    let p0 := points.getD 0 p0d
    let pe := points.getD endIdx p0d
    let dm := scanMax p0 pe (interiorEnum points) (0, 0)
    if epsilon < dm.1 then
      match rdpFuel p0d n (points.take (dm.2 + 1)) epsilon,
            rdpFuel p0d n (points.drop dm.2) epsilon with
      | some recResults1, some recResults2 => some (recResults1.dropLast ++ recResults2)
      | _, _ => none
    else
      some [p0, pe]

/-- `rdp(points, epsilon)`; `none` models the non-terminating recursion. -/
noncomputable def rdp (points : List Point) (epsilon : ℝ) : Option (List Point) :=
  rdpFuel default (points.length + 1) points epsilon

/-- `isSquare(vertices)`: with exactly 4 vertices, compare the consecutive
side lengths; a max/min ratio below 1.2 makes it a square. -/
noncomputable def isSquare (vs : List Point) : Prop :=
  vs.length = 4 ∧
  (max (max (dist (vs.getD 0 default) (vs.getD 1 default))
            (dist (vs.getD 1 default) (vs.getD 2 default)))
       (max (dist (vs.getD 2 default) (vs.getD 3 default))
            (dist (vs.getD 3 default) (vs.getD 0 default))))
    / (min (min (dist (vs.getD 0 default) (vs.getD 1 default))
                (dist (vs.getD 1 default) (vs.getD 2 default)))
           (min (dist (vs.getD 2 default) (vs.getD 3 default))
                (dist (vs.getD 3 default) (vs.getD 0 default))))
    < 12 / 10

/-! ## 3.a Feature calculators and the result model -/

/-- `calculateCentroid`: mean of the blob's coordinates. -/
noncomputable def calculateCentroid (blob : List Pix) : Point :=
  ⟨((blob.map Prod.fst).sum : ℤ) / (blob.length : ℝ),
   ((blob.map Prod.snd).sum : ℤ) / (blob.length : ℝ)⟩

/-- The `{x, y, width, height}` bounding box record. -/
structure BoundingBox where
  x : ℝ
  y : ℝ
  width : ℝ
  height : ℝ

/-- `calculateBoundingBox`: min/max folds over the blob (the pipeline only
calls this on nonempty blobs; the `±Infinity` fold seeds of the source are
modelled by seeding the fold with the first coordinate). -/
noncomputable def calculateBoundingBox (blob : List Pix) : BoundingBox :=
  let xs := blob.map Prod.fst
  let ys := blob.map Prod.snd
  let minX : ℤ := xs.foldl min (xs.headI)
  let minY : ℤ := ys.foldl min (ys.headI)
  let maxX : ℤ := xs.foldl max (xs.headI)
  let maxY : ℤ := ys.foldl max (ys.headI)
  ⟨(minX : ℝ), (minY : ℝ), ((maxX - minX + 1 : ℤ) : ℝ), ((maxY - minY + 1 : ℤ) : ℝ)⟩

/-- A detected shape.  The runtime `type` strings are modelled as `String`
(the TypeScript union annotation omits `"square"`, but the running code
pushes `"square"` values, so the string itself is the honest model). -/
structure DetectedShape where
  type : String
  confidence : ℝ
  boundingBox : BoundingBox
  center : Point
  area : ℝ

/-- The detection result.  `processingTime` is the ambient elapsed time. -/
structure DetectionResult where
  shapes : List DetectedShape
  processingTime : ℚ
  imageWidth : ℕ
  imageHeight : ℕ

/-! ## 3-4. Per-blob feature extraction and classification

The body of the `for (const blob of contours)` loop pushes at most one
shape per blob and carries no state between iterations, so it is modelled
as a function from a blob to `Option DetectedShape`, wrapped in an outer
`Option` whose `none` records a diverging `traceContour` (or `rdp`) call. -/

open scoped Classical in
noncomputable def classifyBlob (w h : ℕ) (blob : List Pix) :
    Option (Option DetectedShape) :=
  if blob.length < 100 then some none else
  match traceContour blob w h with
  | none => none
  | some orderedPerimeter =>
    let area : ℝ := blob.length
    let center := calculateCentroid blob
    let boundingBox := calculateBoundingBox blob
    let perimeterLength : ℝ := orderedPerimeter.length
    let compactness := 4 * Real.pi * area / (perimeterLength * perimeterLength)
    if compactness < 2 / 10 then some none else
    if 95 / 100 < compactness then
      some (some ⟨"circle", min compactness 1, boundingBox, center, area⟩) else
    let epsilon := perimeterLength * (42 / 1000)
    match rdp (orderedPerimeter.map pixToPoint) epsilon with
    | none => none
    | some vertices =>
      let v := vertices.length
      if v = 10 then some (some ⟨"star", 85 / 100, boundingBox, center, area⟩) else
      if v = 5 then some (some ⟨"pentagon", 85 / 100, boundingBox, center, area⟩) else
      if v = 3 then
        if 75 / 100 < compactness then
          some (some ⟨"square", 7 / 10, boundingBox, center, area⟩)
        else some (some ⟨"triangle", 85 / 100, boundingBox, center, area⟩)
      else if v = 4 then
        if isSquare vertices then
          some (some ⟨"square", 9 / 10, boundingBox, center, area⟩)
        else some (some ⟨"rectangle", 9 / 10, boundingBox, center, area⟩)
      else
        if 76 / 100 < compactness then
          some (some ⟨"square", 65 / 100, boundingBox, center, area⟩)
        else if 5 / 10 < compactness then
          some (some ⟨"rectangle", 65 / 100, boundingBox, center, area⟩)
        else some none

/-- `detectShapes(imageData)`.  `elapsed` is the wall-clock time ambient
input (`performance.now()` difference); `none` means the source call never
returns (a diverging trace, reachable — see claim C5). -/
noncomputable def detectShapes (img : ImageData) (elapsed : ℚ) :
    Option DetectionResult :=
  let grayData := toGrayscale img
  let binaryData := otsuBinarize grayData img.width img.height
  let contours := findContours binaryData img.width img.height
  match contours.mapM (classifyBlob img.width img.height) with
  | none => none
  | some classified =>
    some ⟨classified.reduceOption, elapsed, img.width, img.height⟩

/-! ## Proofs: list counting helpers for the Otsu histogram -/

theorem filter_lt_succ_length (g : List ℕ) (n : ℕ) :
    (g.filter (· < n + 1)).length = (g.filter (· < n)).length + g.count n := by
  induction g with
  | nil => simp
  | cons a l ih =>
    rcases Nat.lt_trichotomy a n with h1 | h1 | h1
    · have h2 : a < n + 1 := by omega
      have h3 : ¬ (n = a) := by omega
      have h3x : ¬ (a = n) := by omega
      simp only [List.filter_cons, List.count_cons, beq_iff_eq, h3, h3x,
        if_false, decide_eq_true_eq, h1, h2, if_true, List.length_cons]
      omega
    · subst h1
      have h2 : a < a + 1 := by omega
      have h3 : ¬ (a < a) := by omega
      simp only [List.filter_cons, List.count_cons, beq_iff_eq, if_pos rfl,
        decide_eq_true_eq, h2, h3, if_true, if_false, List.length_cons]
      omega
    · have h2 : ¬ (a < n + 1) := by omega
      have h3 : ¬ (a < n) := by omega
      have h4 : ¬ (n = a) := by omega
      have h4x : ¬ (a = n) := by omega
      simp only [List.filter_cons, List.count_cons, beq_iff_eq, h4, h4x,
        if_false, decide_eq_true_eq, h2, h3]
      omega

theorem filter_lt_succ_sum (g : List ℕ) (n : ℕ) :
    (g.filter (· < n + 1)).sum = (g.filter (· < n)).sum + n * g.count n := by
  induction g with
  | nil => simp
  | cons a l ih =>
    rcases Nat.lt_trichotomy a n with h1 | h1 | h1
    · have h2 : a < n + 1 := by omega
      have h3 : ¬ (n = a) := by omega
      have h3x : ¬ (a = n) := by omega
      simp only [List.filter_cons, List.count_cons, beq_iff_eq, h3, h3x,
        if_false, decide_eq_true_eq, h1, h2, if_true, List.sum_cons,
        Nat.add_zero]
      omega
    · subst h1
      have h2 : a < a + 1 := by omega
      have h3 : ¬ (a < a) := by omega
      simp only [List.filter_cons, List.count_cons, beq_iff_eq, if_pos rfl,
        decide_eq_true_eq, h2, h3, if_true, if_false, List.sum_cons]
      rw [ih]
      ring
    · have h2 : ¬ (a < n + 1) := by omega
      have h3 : ¬ (a < n) := by omega
      have h4 : ¬ (n = a) := by omega
      have h4x : ¬ (a = n) := by omega
      simp only [List.filter_cons, List.count_cons, beq_iff_eq, h4, h4x,
        if_false, decide_eq_true_eq, h2, h3, Nat.add_zero]
      omega

theorem filter_le_eq_filter_lt_succ (g : List ℕ) (n : ℕ) :
    g.filter (· ≤ n) = g.filter (· < n + 1) := by
  apply List.filter_congr
  intro x _
  simp only [decide_eq_decide]
  omega

theorem wBf_eq_filter_lt (g : List ℕ) (t : ℕ) :
    wBf g t = (g.filter (· < t + 1)).length := by
  rw [wBf, filter_le_eq_filter_lt_succ]

theorem sumBf_eq_filter_lt (g : List ℕ) (t : ℕ) :
    sumBf g t = (g.filter (· < t + 1)).sum := by
  rw [sumBf, filter_le_eq_filter_lt_succ]

theorem wBf_mono (g : List ℕ) {s t : ℕ} (h : s ≤ t) : wBf g s ≤ wBf g t := by
  unfold wBf
  apply List.Sublist.length_le
  apply List.monotone_filter_right
  intro x hx
  simp only [decide_eq_true_eq] at hx ⊢
  omega

theorem wBf_le_length (g : List ℕ) (t : ℕ) : wBf g t ≤ g.length :=
  (List.filter_sublist g).length_le

/-! ## Proofs: the Otsu sweep invariant -/

/-- The sweep state after processing candidates `0 .. n-1`. -/
def sweepUpTo (g : List ℕ) (w h n : ℕ) : OtsuSt :=
  (List.range n).foldl (otsuStep (w * h : ℕ) (g.sum : ℕ) g) ⟨0, 0, 0, 0, false⟩

theorem sweepUpTo_succ (g : List ℕ) (w h n : ℕ) :
    sweepUpTo g w h (n + 1)
      = otsuStep (w * h : ℕ) (g.sum : ℕ) g (sweepUpTo g w h n) n := by
  unfold sweepUpTo
  rw [List.range_succ, List.foldl_append, List.foldl_cons, List.foldl_nil]

theorem otsuSweep_eq_sweepUpTo (g : List ℕ) (w h : ℕ) :
    otsuSweep g w h = sweepUpTo g w h 256 := rfl

/-- The full invariant of the Otsu sweep, at a sweep position `n`. -/
def OtsuInv (g : List ℕ) (w h n : ℕ) (st : OtsuSt) : Prop :=
  (0 ≤ st.maxVariance)
  ∧ (∀ t, t < n → OtsuValid g w h t → betweenVar g w h t ≤ st.maxVariance)
  ∧ ((st.maxVariance = 0 ∧ st.threshold = 0)
     ∨ (0 < st.maxVariance ∧ st.threshold < n ∧ OtsuValid g w h st.threshold
        ∧ betweenVar g w h st.threshold = st.maxVariance
        ∧ ∀ t, t < st.threshold → OtsuValid g w h t →
            betweenVar g w h t < st.maxVariance))
  ∧ ((st.stopped = false
      ∧ st.wB = ((g.filter (· < n)).length : ℚ)
      ∧ st.sum = ((g.filter (· < n)).sum : ℚ)
      ∧ ∀ t, t < n → wBf g t ≠ 0 → wBf g t ≠ w * h)
     ∨ (st.stopped = true
        ∧ ∃ u, u < n ∧ wBf g u ≠ 0 ∧ wBf g u = w * h))

theorem otsuInv_zero (g : List ℕ) (w h : ℕ) :
    OtsuInv g w h 0 ⟨0, 0, 0, 0, false⟩ := by
  refine ⟨le_refl 0, ?_, Or.inl ⟨rfl, rfl⟩, Or.inl ⟨rfl, by simp, by simp, ?_⟩⟩
  · intro t ht; omega
  · intro t ht; omega

theorem otsuInv_step (g : List ℕ) (w h : ℕ) (hlen : g.length = w * h)
    (n : ℕ) (hn : n < 256) (st : OtsuSt) (hinv : OtsuInv g w h n st) :
    OtsuInv g w h (n + 1) (otsuStep (w * h : ℕ) (g.sum : ℕ) g st n) := by
  obtain ⟨hMV0, hMVub, hthr, hstate⟩ := hinv
  have hthr1 : (st.maxVariance = 0 ∧ st.threshold = 0)
      ∨ (0 < st.maxVariance ∧ st.threshold < n + 1 ∧ OtsuValid g w h st.threshold
         ∧ betweenVar g w h st.threshold = st.maxVariance
         ∧ ∀ t, t < st.threshold → OtsuValid g w h t →
             betweenVar g w h t < st.maxVariance) := by
    rcases hthr with hx | ⟨a, b, c, d, e⟩
    · exact Or.inl hx
    · exact Or.inr ⟨a, by omega, c, d, e⟩
  clear hthr
  unfold otsuStep
  rcases hstate with ⟨hs, hwB, hsum, hnostop⟩ | ⟨hs, u, hu, hu1, hu2⟩
  swap
  · -- already stopped: the state is frozen
    rw [hs]
    simp only [if_pos]
    refine ⟨hMV0, ?_, hthr1, Or.inr ⟨hs, u, by omega, hu1, hu2⟩⟩
    intro t ht hv
    rcases Nat.lt_or_ge t n with h' | h'
    · exact hMVub t h' hv
    · -- t ≥ n > u : wBf g t = w*h, contradicting validity
      exfalso
      have h1 : wBf g u ≤ wBf g t := wBf_mono g (by omega)
      have h2 : wBf g t ≤ w * h := hlen ▸ wBf_le_length g t
      exact hv.2.2 (by omega)
  · rw [hs]
    simp only [Bool.false_eq_true, if_false]
    -- the updated background weight is the (t = n)-closed form
    have hwB' : st.wB + (hist g n : ℚ) = (wBf g n : ℚ) := by
      rw [hwB, wBf_eq_filter_lt, filter_lt_succ_length]
      simp only [hist]
      push_cast
      ring
    by_cases hz : st.wB + (hist g n : ℚ) = 0
    · -- `continue`: wB == 0
      rw [if_pos hz]
      have hzn : wBf g n = 0 := by
        have := hwB'.symm.trans hz
        exact_mod_cast this
      have hcount : g.count n = 0 := by
        have h1 := filter_lt_succ_length g n
        have h2 : wBf g n = (g.filter (· < n + 1)).length := wBf_eq_filter_lt g n
        omega
      refine ⟨hMV0, ?_, hthr1, Or.inl ⟨rfl, ?_, ?_, ?_⟩⟩
      · intro t ht hv
        rcases Nat.lt_or_ge t n with h' | h'
        · exact hMVub t h' hv
        · have ht' : t = n := by omega
          exact absurd (ht' ▸ hv.2.1) (by simpa using hzn)
      · show st.wB + (hist g n : ℚ) = _
        rw [hwB]
        simp only [hist, hcount, Nat.cast_zero, add_zero]
        have h1 := filter_lt_succ_length g n
        norm_cast
        omega
      · show st.sum = _
        rw [hsum]
        norm_cast
        rw [filter_lt_succ_sum g n, hcount]
        simp
      · intro t ht
        rcases Nat.lt_or_ge t n with h' | h'
        · exact hnostop t h'
        · have ht' : t = n := by omega
          subst ht'
          intro hx
          exact absurd hzn hx
    · rw [if_neg hz]
      by_cases hstop : ((w * h : ℕ) : ℚ) - (st.wB + (hist g n : ℚ)) = 0
      · -- `break`: wF == 0
        rw [if_pos hstop]
        have hn0 : wBf g n ≠ 0 := by
          intro hc
          apply hz
          rw [hwB']
          exact_mod_cast hc
        have hnw : wBf g n = w * h := by
          have : ((w * h : ℕ) : ℚ) = (wBf g n : ℚ) := by
            rw [← hwB']; linarith
          exact_mod_cast this.symm
        refine ⟨hMV0, ?_, hthr1, Or.inr ⟨rfl, n, by omega, hn0, hnw⟩⟩
        intro t ht hv
        rcases Nat.lt_or_ge t n with h' | h'
        · exact hMVub t h' hv
        · exfalso
          have h1 : wBf g n ≤ wBf g t := wBf_mono g (by omega)
          have h2 : wBf g t ≤ w * h := hlen ▸ wBf_le_length g t
          exact hv.2.2 (by omega)
      · rw [if_neg hstop]
        -- a genuinely evaluated candidate: t = n is valid
        have hn0 : wBf g n ≠ 0 := by
          intro hc
          apply hz
          rw [hwB']
          exact_mod_cast hc
        have hnw : wBf g n ≠ w * h := by
          intro hc
          apply hstop
          rw [hwB', hc]
          ring
        have hvalidn : OtsuValid g w h n := ⟨hn, hn0, hnw⟩
        have hsum' : st.sum + (n : ℚ) * (hist g n : ℚ) = (sumBf g n : ℚ) := by
          rw [hsum, sumBf_eq_filter_lt, filter_lt_succ_sum]
          simp only [hist]
          push_cast
          ring
        -- the computed variance is the closed form at n
        have hvar : (st.wB + (hist g n : ℚ)) * (((w * h : ℕ) : ℚ) - (st.wB + (hist g n : ℚ)))
            * ((st.sum + (n : ℚ) * (hist g n : ℚ)) / (st.wB + (hist g n : ℚ))
               - (((g.sum : ℕ) : ℚ) - (st.sum + (n : ℚ) * (hist g n : ℚ)))
                 / (((w * h : ℕ) : ℚ) - (st.wB + (hist g n : ℚ))))
            * ((st.sum + (n : ℚ) * (hist g n : ℚ)) / (st.wB + (hist g n : ℚ))
               - (((g.sum : ℕ) : ℚ) - (st.sum + (n : ℚ) * (hist g n : ℚ)))
                 / (((w * h : ℕ) : ℚ) - (st.wB + (hist g n : ℚ))))
            = betweenVar g w h n := by
          rw [hwB', hsum', betweenVar]
          push_cast
          ring
        by_cases hup : st.maxVariance < (st.wB + (hist g n : ℚ))
            * (((w * h : ℕ) : ℚ) - (st.wB + (hist g n : ℚ)))
            * ((st.sum + (n : ℚ) * (hist g n : ℚ)) / (st.wB + (hist g n : ℚ))
               - (((g.sum : ℕ) : ℚ) - (st.sum + (n : ℚ) * (hist g n : ℚ)))
                 / (((w * h : ℕ) : ℚ) - (st.wB + (hist g n : ℚ))))
            * ((st.sum + (n : ℚ) * (hist g n : ℚ)) / (st.wB + (hist g n : ℚ))
               - (((g.sum : ℕ) : ℚ) - (st.sum + (n : ℚ) * (hist g n : ℚ)))
                 / (((w * h : ℕ) : ℚ) - (st.wB + (hist g n : ℚ))))
        · rw [if_pos hup, hvar]
          rw [hvar] at hup
          refine ⟨?_, ?_, ?_, Or.inl ⟨rfl, ?_, ?_, ?_⟩⟩
          · show (0 : ℚ) ≤ betweenVar g w h n
            linarith
          · intro t ht hv
            show betweenVar g w h t ≤ betweenVar g w h n
            rcases Nat.lt_or_ge t n with h' | h'
            · have := hMVub t h' hv
              linarith
            · have ht' : t = n := by omega
              subst ht'
              exact le_refl _
          · refine Or.inr ⟨?_, ?_, hvalidn, ?_, ?_⟩
            · show (0 : ℚ) < betweenVar g w h n
              linarith
            · show n < n + 1
              omega
            · show betweenVar g w h n = betweenVar g w h n
              rfl
            · intro t ht hv
              show betweenVar g w h t < betweenVar g w h n
              have ht2 : t < n := ht
              have := hMVub t ht2 hv
              linarith
          · show st.wB + (hist g n : ℚ) = _
            rw [show ((g.filter (· < n + 1)).length : ℚ) = (wBf g n : ℚ) by
              rw [wBf_eq_filter_lt], ← hwB']
          · show st.sum + (n : ℚ) * (hist g n : ℚ) = _
            rw [show ((g.filter (· < n + 1)).sum : ℚ) = (sumBf g n : ℚ) by
              rw [sumBf_eq_filter_lt], ← hsum']
          · intro t ht
            rcases Nat.lt_or_ge t n with h' | h'
            · exact hnostop t h'
            · have ht' : t = n := by omega
              subst ht'
              intro _
              exact hnw
        · rw [if_neg hup]
          rw [hvar] at hup
          refine ⟨hMV0, ?_, hthr1, Or.inl ⟨rfl, ?_, ?_, ?_⟩⟩
          · intro t ht hv
            show betweenVar g w h t ≤ st.maxVariance
            rcases Nat.lt_or_ge t n with h' | h'
            · exact hMVub t h' hv
            · have ht' : t = n := by omega
              subst ht'
              linarith
          · show st.wB + (hist g n : ℚ) = _
            rw [show ((g.filter (· < n + 1)).length : ℚ) = (wBf g n : ℚ) by
              rw [wBf_eq_filter_lt], ← hwB']
          · show st.sum + (n : ℚ) * (hist g n : ℚ) = _
            rw [show ((g.filter (· < n + 1)).sum : ℚ) = (sumBf g n : ℚ) by
              rw [sumBf_eq_filter_lt], ← hsum']
          · intro t ht
            rcases Nat.lt_or_ge t n with h' | h'
            · exact hnostop t h'
            · have ht' : t = n := by omega
              subst ht'
              intro _
              exact hnw

theorem otsuInv_all (g : List ℕ) (w h : ℕ) (hlen : g.length = w * h) :
    ∀ n, n ≤ 256 → OtsuInv g w h n (sweepUpTo g w h n) := by
  intro n
  induction n with
  | zero => intro _; exact otsuInv_zero g w h
  | succ k ih =>
    intro hk
    rw [sweepUpTo_succ]
    exact otsuInv_step g w h hlen k (by omega) _ (ih (by omega))

/-- The invariant, at the end of the sweep. -/
theorem otsuInv_final (g : List ℕ) (w h : ℕ) (hlen : g.length = w * h) :
    OtsuInv g w h 256 (otsuSweep g w h) := by
  rw [otsuSweep_eq_sweepUpTo]
  exact otsuInv_all g w h hlen 256 (le_refl _)

/-! ## Proofs: whenever any valid candidate exists, some candidate has
strictly positive between-class variance (the minimum-intensity split). -/

theorem list_sum_eq_of_all_eq (l : List ℕ) (a : ℕ) (h : ∀ x ∈ l, x = a) :
    l.sum = a * l.length := by
  induction l with
  | nil => simp
  | cons b rest ih =>
    have hb : b = a := h b (by simp)
    have hr := ih (fun x hx => h x (by simp [hx]))
    simp only [List.sum_cons, List.length_cons, hr, hb]
    ring

theorem list_sum_ge_of_all_ge (l : List ℕ) (b : ℕ) (h : ∀ x ∈ l, b ≤ x) :
    b * l.length ≤ l.sum := by
  induction l with
  | nil => simp
  | cons a rest ih =>
    have ha : b ≤ a := h a (by simp)
    have hr := ih (fun x hx => h x (by simp [hx]))
    simp only [List.sum_cons, List.length_cons]
    calc b * (rest.length + 1) = b * rest.length + b := by ring
    _ ≤ rest.sum + a := by omega
    _ = a + rest.sum := by ring

theorem length_filter_le_split (g : List ℕ) (t : ℕ) :
    g.length = (g.filter (· ≤ t)).length
      + (g.filter (fun x => ¬ (x ≤ t))).length := by
  induction g with
  | nil => simp
  | cons a l ih =>
    by_cases ha : a ≤ t
    · simp only [List.filter_cons, ha] at ih ⊢
      simp [ha] at ih ⊢
      omega
    · simp only [List.filter_cons, ha] at ih ⊢
      simp [ha] at ih ⊢
      omega

theorem sum_filter_le_split (g : List ℕ) (t : ℕ) :
    g.sum = (g.filter (· ≤ t)).sum
      + (g.filter (fun x => ¬ (x ≤ t))).sum := by
  induction g with
  | nil => simp
  | cons a l ih =>
    by_cases ha : a ≤ t
    · simp only [List.filter_cons, ha] at ih ⊢
      simp [ha] at ih ⊢
      omega
    · simp only [List.filter_cons, ha] at ih ⊢
      simp [ha] at ih ⊢
      omega

theorem wBf_pos_of_mem (g : List ℕ) (t : ℕ) (x : ℕ) (hx : x ∈ g)
    (hxt : x ≤ t) : wBf g t ≠ 0 := by
  unfold wBf
  have : x ∈ g.filter (· ≤ t) := by
    rw [List.mem_filter]
    exact ⟨hx, by simpa using hxt⟩
  intro hc
  rw [List.length_eq_zero] at hc
  rw [hc] at this
  simp at this

theorem exists_pos_var (g : List ℕ) (w h : ℕ) (hlen : g.length = w * h)
    (t0 : ℕ) (hv : OtsuValid g w h t0) :
    ∃ a, OtsuValid g w h a ∧ 0 < betweenVar g w h a := by
  have hex : ∃ t, wBf g t ≠ 0 := ⟨t0, hv.2.1⟩
  obtain ⟨a, ha0, hmin, hat0⟩ :
      ∃ a, wBf g a ≠ 0 ∧ (∀ m, m < a → wBf g m = 0) ∧ a ≤ t0 := by
    refine ⟨Nat.find hex, Nat.find_spec hex, ?_, Nat.find_min' hex hv.2.1⟩
    intro m hm
    have := Nat.find_min hex hm
    simpa using this
  -- every entry that is ≤ a equals a
  have hkey : ∀ x ∈ g, x ≤ a → x = a := by
    intro x hx hxa
    by_contra hne
    have hxlt : x < a := by omega
    exact (wBf_pos_of_mem g x x hx (le_refl x)) (hmin x hxlt)
  have hwa_le : wBf g a ≤ wBf g t0 := wBf_mono g hat0
  have hwt0_le : wBf g t0 ≤ w * h := hlen ▸ wBf_le_length g t0
  have hva : OtsuValid g w h a := by
    have h256 := hv.1
    have hnw := hv.2.2
    exact ⟨by omega, ha0, by omega⟩
  refine ⟨a, hva, ?_⟩
  -- abbreviations
  have hc1 : 1 ≤ wBf g a := Nat.one_le_iff_ne_zero.mpr ha0
  have hcW : wBf g a < w * h := by
    have := hv.2.2
    omega
  have hsum_a : sumBf g a = a * wBf g a := by
    unfold sumBf wBf
    apply list_sum_eq_of_all_eq
    intro x hx
    rw [List.mem_filter] at hx
    exact hkey x hx.1 (by simpa using hx.2)
  have hcomp_len : (g.filter (fun x => ¬ (x ≤ a))).length = w * h - wBf g a := by
    have := length_filter_le_split g a
    unfold wBf
    omega
  have hcomp_ge : (a + 1) * (w * h - wBf g a) ≤ (g.filter (fun x => ¬ (x ≤ a))).sum := by
    rw [← hcomp_len]
    apply list_sum_ge_of_all_ge
    intro x hx
    rw [List.mem_filter] at hx
    have := hx.2
    simp only [decide_not, Bool.not_eq_true', decide_eq_false_iff_not] at this
    omega
  have hsum_split : g.sum = sumBf g a + (g.filter (fun x => ¬ (x ≤ a))).sum := by
    unfold sumBf
    exact sum_filter_le_split g a
  -- pass to ℚ
  have hCpos : 0 < (wBf g a : ℚ) := by exact_mod_cast hc1
  have hFpos : 0 < ((w * h : ℚ) - (wBf g a : ℚ)) := by
    have : (wBf g a : ℚ) < ((w * h : ℕ) : ℚ) := by exact_mod_cast hcW
    push_cast at this ⊢
    linarith
  have hmB : (sumBf g a : ℚ) / (wBf g a : ℚ) = (a : ℚ) := by
    rw [hsum_a]
    push_cast
    field_simp
  have hmF : (a : ℚ) + 1
      ≤ ((g.sum : ℚ) - (sumBf g a : ℚ)) / ((w * h : ℚ) - (wBf g a : ℚ)) := by
    rw [le_div_iff₀ hFpos]
    have h1 : (g.sum : ℚ) - (sumBf g a : ℚ)
        = ((g.filter (fun x => ¬ (x ≤ a))).sum : ℚ) := by
      rw [hsum_split]
      push_cast
      ring
    rw [h1]
    have h2 : ((a : ℚ) + 1) * ((w * h : ℚ) - (wBf g a : ℚ))
        = (((a + 1) * (w * h - wBf g a) : ℕ) : ℚ) := by
      push_cast [Nat.cast_sub (le_of_lt hcW)]
      ring
    rw [h2]
    exact_mod_cast hcomp_ge
  rw [betweenVar, hmB]
  have hdiff : 1 ≤ ((g.sum : ℚ) - (sumBf g a : ℚ)) / ((w * h : ℚ) - (wBf g a : ℚ))
      - (a : ℚ) := by linarith
  have hsq : 1 ≤ ((a : ℚ) - ((g.sum : ℚ) - (sumBf g a : ℚ)) / ((w * h : ℚ) - (wBf g a : ℚ)))
      * ((a : ℚ) - ((g.sum : ℚ) - (sumBf g a : ℚ)) / ((w * h : ℚ) - (wBf g a : ℚ))) := by
    nlinarith
  have hCF : 0 < (wBf g a : ℚ) * ((w * h : ℚ) - (wBf g a : ℚ)) := mul_pos hCpos hFpos
  nlinarith [mul_le_mul_of_nonneg_left hsq (le_of_lt hCF)]

/-! ## Proofs: uniform (single-intensity) images -/

theorem toGrayscale_length (img : ImageData) :
    (toGrayscale img).length = img.width * img.height := by
  simp [toGrayscale]

theorem uniform_no_valid (g : List ℕ) (v w h : ℕ) (hlen : g.length = w * h)
    (huni : ∀ u ∈ g, u = v) : ∀ t, ¬ OtsuValid g w h t := by
  intro t hv
  obtain ⟨_, h0, hw⟩ := hv
  -- some entry is ≤ t, so v ≤ t, so the whole buffer is background
  have hvt : v ≤ t := by
    by_contra hvt
    apply h0
    unfold wBf
    rw [List.length_eq_zero, List.filter_eq_nil_iff]
    intro x hx
    have := huni x hx
    simp only [decide_eq_true_eq]
    omega
  have : g.filter (· ≤ t) = g := by
    rw [List.filter_eq_self]
    intro x hx
    have := huni x hx
    simp only [decide_eq_true_eq]
    omega
  apply hw
  unfold wBf
  rw [this, hlen]

theorem threshold_zero_of_no_valid (g : List ℕ) (w h : ℕ)
    (hlen : g.length = w * h) (hnv : ∀ t, ¬ OtsuValid g w h t) :
    otsuThreshold g w h = 0 := by
  have hinv := otsuInv_final g w h hlen
  rcases hinv.2.2.1 with ⟨_, hT⟩ | ⟨_, _, hvT, _⟩
  · exact hT
  · exact absurd hvT (hnv _)

/-! ## Proofs: reading the mask, and the empty-mask pipeline -/

theorem getD_range_map {α : Type} (f : ℕ → α) (n i : ℕ) (d : α) :
    ((List.range n).map f).getD i d = if i < n then f i else d := by
  by_cases hi : i < n
  · rw [if_pos hi]
    rw [List.getD_eq_getElem?_getD]
    rw [List.getElem?_map]
    rw [List.getElem?_range hi]
    rfl
  · rw [if_neg hi]
    rw [List.getD_eq_getElem?_getD]
    rw [List.getElem?_map]
    rw [List.getElem?_eq_none (by simpa using hi)]
    rfl

/-- `maskAt` over the constructed mask, in closed form. -/
theorem maskAt_otsuBinarize (g : List ℕ) (w h : ℕ) (x y : ℤ) :
    maskAt (otsuBinarize g w h) x y
      = if y.toNat < h ∧ x.toNat < w then
          (match g.get? (y.toNat * w + x.toNat) with
           | some v => if v < otsuThreshold g w h then 1 else 0
           | none => 0)
        else 0 := by
  unfold maskAt otsuBinarize
  rw [getD_range_map]
  by_cases hy : y.toNat < h
  · rw [if_pos hy, getD_range_map]
    by_cases hx : x.toNat < w
    · rw [if_pos hx, if_pos ⟨hy, hx⟩]
    · rw [if_neg hx, if_neg (by tauto)]
  · rw [if_neg hy, if_neg (by tauto)]
    simp

theorem maskAt_zero_of_threshold_zero (g : List ℕ) (w h : ℕ)
    (hT : otsuThreshold g w h = 0) (x y : ℤ) :
    maskAt (otsuBinarize g w h) x y = 0 := by
  rw [maskAt_otsuBinarize, hT]
  by_cases hin : y.toNat < h ∧ x.toNat < w
  · rw [if_pos hin]
    cases hget : g.get? (y.toNat * w + x.toNat) with
    | none => rfl
    | some v => simp
  · rw [if_neg hin]

/-- If no cell of the mask reads 1, the scan finds no contour. -/
theorem findContours_of_no_fg (m : List (List ℕ)) (w h : ℕ)
    (hm : ∀ x y : ℤ, maskAt m x y ≠ 1) :
    findContours m w h = [] := by
  unfold findContours
  have : ∀ (l : List (ℕ × ℕ)) (vis : Finset Pix) (acc : List (List Pix)),
      (l.foldl (fun st p =>
        if maskAt m p.1 p.2 = 1 ∧ ((p.1 : ℤ), (p.2 : ℤ)) ∉ st.1 then
          let r := floodFill m p.1 p.2 w h st.1
          (r.2, st.2 ++ [r.1])
        else st) (vis, acc)) = (vis, acc) := by
    intro l
    induction l with
    | nil => intro vis acc; rfl
    | cons p rest ih =>
      intro vis acc
      rw [List.foldl_cons, if_neg (by
        intro hc
        exact hm p.1 p.2 hc.1)]
      exact ih vis acc
  rw [this]

/-- Every entry of the mask is 0 when the threshold is 0 (an
all-background mask). -/
theorem mask_all_zero_of_threshold_zero (g : List ℕ) (w h : ℕ)
    (hT : otsuThreshold g w h = 0) :
    ∀ row ∈ otsuBinarize g w h, ∀ c ∈ row, c = 0 := by
  intro row hrow c hc
  unfold otsuBinarize at hrow
  rw [List.mem_map] at hrow
  obtain ⟨y, _, hyrow⟩ := hrow
  subst hyrow
  rw [List.mem_map] at hc
  obtain ⟨x, _, hxc⟩ := hc
  subst hxc
  rw [hT]
  cases hget : g.get? (y * w + x) with
  | none => rfl
  | some v => simp

/-- Detection on any image whose grayscale buffer is uniform: the threshold
degenerates to 0, the mask is all background, no contour is found, and the
result is the normal empty one. -/
theorem detectShapes_uniform (img : ImageData) (v : ℕ) (t : ℚ)
    (huni : ∀ u ∈ toGrayscale img, u = v) :
    detectShapes img t = some ⟨[], t, img.width, img.height⟩ := by
  have hlen := toGrayscale_length img
  have hnv := uniform_no_valid (toGrayscale img) v img.width img.height hlen huni
  have hT := threshold_zero_of_no_valid (toGrayscale img) img.width img.height hlen hnv
  have hfc : findContours (otsuBinarize (toGrayscale img) img.width img.height)
      img.width img.height = [] := by
    apply findContours_of_no_fg
    intro x y
    rw [maskAt_zero_of_threshold_zero (toGrayscale img) img.width img.height hT x y]
    omega
  unfold detectShapes
  simp only [hfc]
  rfl

/-! ## Claim theorems: Otsu (C4, C8, C9) -/

/-- Claim C4: for every intensity buffer (of the declared pixel count), the
Otsu sweep's evaluated candidates are exactly those `t` with nonzero
background weight (skipped while `wB = 0`) and nonzero foreground weight
(the sweep stops at the first `wF = 0`, and by monotonicity of `wB` no
later candidate has `wF ≠ 0`); whenever any candidate is valid, the chosen
threshold is a valid candidate attaining the strict maximum of the
between-class variance `wB·wF·(mB−mF)²`, and among candidates of equal
maximal variance the lowest `t` is kept — later equal maxima never replace
it. -/
theorem c4_otsu_first_strict_max (g : List ℕ) (w h : ℕ)
    (hlen : g.length = w * h) (t0 : ℕ) (hv : OtsuValid g w h t0) :
    OtsuValid g w h (otsuThreshold g w h)
    ∧ (∀ t, OtsuValid g w h t →
        betweenVar g w h t ≤ betweenVar g w h (otsuThreshold g w h))
    ∧ (∀ t, OtsuValid g w h t →
        betweenVar g w h t = betweenVar g w h (otsuThreshold g w h) →
        otsuThreshold g w h ≤ t) := by
  obtain ⟨a, hva, hpos⟩ := exists_pos_var g w h hlen t0 hv
  obtain ⟨hMV0, hub, hthr, _⟩ := otsuInv_final g w h hlen
  have hMVpos : 0 < (otsuSweep g w h).maxVariance :=
    lt_of_lt_of_le hpos (hub a hva.1 hva)
  unfold otsuThreshold
  rcases hthr with ⟨hMVz, _⟩ | ⟨_, _, hvT, hvarT, hfirst⟩
  · rw [hMVz] at hMVpos
    exact absurd hMVpos (lt_irrefl 0)
  · refine ⟨hvT, ?_, ?_⟩
    · intro t hvt
      rw [hvarT]
      exact hub t hvt.1 hvt
    · intro t hvt heq
      by_contra hgt
      have h2 : t < (otsuSweep g w h).threshold := by omega
      have h3 := hfirst t h2 hvt
      rw [heq, hvarT] at h3
      exact lt_irrefl _ h3

/-- Witness for C4 at the buffer `[0,0,255,255]` (a 2×2 image), where
candidate `t = 0` is valid. -/
theorem c4_witness :
    (([0, 0, 255, 255] : List ℕ).length = 2 * 2
      ∧ OtsuValid [0, 0, 255, 255] 2 2 0)
    ∧ (OtsuValid [0, 0, 255, 255] 2 2 (otsuThreshold [0, 0, 255, 255] 2 2)
       ∧ (∀ t, OtsuValid [0, 0, 255, 255] 2 2 t →
           betweenVar [0, 0, 255, 255] 2 2 t
             ≤ betweenVar [0, 0, 255, 255] 2 2 (otsuThreshold [0, 0, 255, 255] 2 2))
       ∧ (∀ t, OtsuValid [0, 0, 255, 255] 2 2 t →
           betweenVar [0, 0, 255, 255] 2 2 t
             = betweenVar [0, 0, 255, 255] 2 2 (otsuThreshold [0, 0, 255, 255] 2 2) →
           otsuThreshold [0, 0, 255, 255] 2 2 ≤ t)) :=
  ⟨⟨by decide, by decide⟩,
   c4_otsu_first_strict_max [0, 0, 255, 255] 2 2 (by decide) 0 (by decide)⟩

/-- Claim C8: on an image whose pixels all map to one grayscale intensity,
no sweep candidate is valid (so the class means `mB`, `mF` — the only
divisions — are never computed), the returned threshold is 0, the mask is
all background, and detection returns the normal empty result. -/
theorem c8_uniform_intensity (img : ImageData) (v : ℕ) (t : ℚ)
    (huni : ∀ u ∈ toGrayscale img, u = v) :
    (∀ u, ¬ OtsuValid (toGrayscale img) img.width img.height u)
    ∧ otsuThreshold (toGrayscale img) img.width img.height = 0
    ∧ (∀ row ∈ otsuBinarize (toGrayscale img) img.width img.height,
        ∀ c ∈ row, c = 0)
    ∧ detectShapes img t = some ⟨[], t, img.width, img.height⟩ := by
  have hlen := toGrayscale_length img
  have hnv := uniform_no_valid (toGrayscale img) v img.width img.height hlen huni
  have hT := threshold_zero_of_no_valid (toGrayscale img) img.width img.height
    hlen hnv
  exact ⟨hnv, hT,
    mask_all_zero_of_threshold_zero (toGrayscale img) img.width img.height hT,
    detectShapes_uniform img v t huni⟩

/-- Witness for C8: a 2×2 image whose grayscale buffer is uniformly 0. -/
theorem c8_witness :
    (∀ u ∈ toGrayscale ⟨[], 2, 2⟩, u = 0)
    ∧ ((∀ u, ¬ OtsuValid (toGrayscale ⟨[], 2, 2⟩) 2 2 u)
       ∧ otsuThreshold (toGrayscale ⟨[], 2, 2⟩) 2 2 = 0
       ∧ (∀ row ∈ otsuBinarize (toGrayscale ⟨[], 2, 2⟩) 2 2, ∀ c ∈ row, c = 0)
       ∧ detectShapes ⟨[], 2, 2⟩ 0 = some ⟨[], 0, 2, 2⟩) :=
  ⟨by decide, c8_uniform_intensity ⟨[], 2, 2⟩ 0 0 (by decide)⟩

/-- Claim C9: a mask cell is foreground (1) iff the corresponding intensity
is strictly below the chosen threshold; otherwise background (0).  The
intensity read is `grayData[y*width+x]`. -/
theorem c9_mask_strict_below (g : List ℕ) (w h y x : ℕ)
    (hy : y < h) (hx : x < w) :
    ((otsuBinarize g w h).getD y []).getD x 0 = 1
      ↔ ∃ v, g.get? (y * w + x) = some v ∧ v < otsuThreshold g w h := by
  unfold otsuBinarize
  rw [getD_range_map, if_pos hy, getD_range_map, if_pos hx]
  cases hget : g.get? (y * w + x) with
  | none => simp
  | some v =>
    by_cases hlt : v < otsuThreshold g w h
    · simp [hlt]
    · simp [hlt]

/-- Witness for C9 at the buffer `[5]` of a 1×1 image, cell `(0,0)`. -/
theorem c9_witness :
    ((0 < 1 ∧ 0 < 1) : Prop)
    ∧ (((otsuBinarize [5] 1 1).getD 0 []).getD 0 0 = 1
        ↔ ∃ v, ([5] : List ℕ).get? (0 * 1 + 0) = some v
            ∧ v < otsuThreshold [5] 1 1) :=
  ⟨⟨by decide, by decide⟩,
   c9_mask_strict_below [5] 1 1 0 0 (by decide) (by decide)⟩

/-! ## Claim theorems: the RDP distance guard (C3) -/

/-- Claim C3 evaluation: the source has no guard for coincident segment
endpoints.  For every point `p` and every pair of equal endpoints, the
perpendicular-distance computation divides the zero numerator by the zero
denominator: the float result is NaN (`none`), not the defined fallback
distance 0 the specification requires. -/
theorem c3_coincident_endpoints_nan (p p1 : Point) :
    pointLineDistance p p1 p1 = none := by
  unfold pointLineDistance
  simp

/-! ## Claim theorems: Moore-neighbor tracing (C5) -/

/-- 8-neighborhood adjacency of two distinct pixels (sharing an edge or a
corner), as tested by the flood fill's `dx`/`dy` loops. -/
def adjacent (p q : Pix) : Prop :=
  p ≠ q ∧ (p.1 - q.1).natAbs ≤ 1 ∧ (p.2 - q.2).natAbs ≤ 1

instance (p q : Pix) : Decidable (adjacent p q) := by
  unfold adjacent; infer_instance

/-- Claim C5 evaluation: the tracing loop runs forever on the non-empty
8-connected blob `{(0,0), (1,1), (0,2)}`.  From the canonical start
`(0,0)` (direction 0) the deterministic iteration reaches the state
`((0,2), 5)`, and the two states `((0,2), 5)` and `((1,1), 1)` step to
each other while neither position is the start pixel, so the `do…while`
loop of the source never exits; the fueled model returns `none`. -/
theorem c5_trace_runs_forever :
    adjacent (0, 0) (1, 1) ∧ adjacent (1, 1) (0, 2)
    ∧ startPixel [(0, 0), (1, 1), (0, 2)] = (0, 0)
    ∧ traceSearch ([((0 : ℤ), (0 : ℤ)), (1, 1), (0, 2)] : List Pix).toFinset
        (0, 0) 0 = some ((1, 1), 3)
    ∧ traceSearch ([((0 : ℤ), (0 : ℤ)), (1, 1), (0, 2)] : List Pix).toFinset
        (1, 1) 3 = some ((0, 2), 5)
    ∧ traceSearch ([((0 : ℤ), (0 : ℤ)), (1, 1), (0, 2)] : List Pix).toFinset
        (0, 2) 5 = some ((1, 1), 1)
    ∧ traceSearch ([((0 : ℤ), (0 : ℤ)), (1, 1), (0, 2)] : List Pix).toFinset
        (1, 1) 1 = some ((0, 2), 5)
    ∧ ((1, 1) : Pix) ≠ (0, 0) ∧ ((0, 2) : Pix) ≠ (0, 0)
    ∧ traceContour [(0, 0), (1, 1), (0, 2)] 3 3 = none := by
  decide

/-! ## Claim theorems: the top-level operation (C1, C2, C10) -/

/-- The top-level operation in applicative form: everything except
`processingTime` is a function of the classified contours. -/
theorem detectShapes_eq (img : ImageData) (t : ℚ) :
    detectShapes img t
      = (List.mapM (classifyBlob img.width img.height)
          (findContours (otsuBinarize (toGrayscale img) img.width img.height)
            img.width img.height)).map
          (fun cls =>
            ⟨cls.reduceOption, t, img.width, img.height⟩) := by
  unfold detectShapes
  cases h : List.mapM (classifyBlob img.width img.height)
      (findContours (otsuBinarize (toGrayscale img) img.width img.height)
        img.width img.height) with
  | none =>
    simp only [h]
    rfl
  | some cls =>
    simp only [h]
    rfl

/-- Claim C1 (amended): `detectShapes` never rejects its input — whenever
it returns at all, the result is a normal `DetectionResult` echoing the
input dimensions and the elapsed time, with the shapes list possibly
empty; in particular "no shapes found" is such a normal result, never a
failure. -/
theorem c1_normal_result (img : ImageData) (t : ℚ) (r : DetectionResult)
    (hr : detectShapes img t = some r) :
    r.processingTime = t ∧ r.imageWidth = img.width
      ∧ r.imageHeight = img.height := by
  rw [detectShapes_eq] at hr
  rw [Option.map_eq_some'] at hr
  obtain ⟨cls, _, hr2⟩ := hr
  rw [← hr2]
  exact ⟨rfl, rfl, rfl⟩

/-- Claim C1 counterexample: a malformed input — buffer length 0 instead
of the required `4·width·height = 4` — is not rejected and no failure is
raised before the pipeline runs: every stage processes it and detection
returns a normal result. -/
theorem c1_malformed_not_rejected :
    (⟨[], 1, 1⟩ : ImageData).data.length ≠ 4 * 1 * 1
    ∧ detectShapes ⟨[], 1, 1⟩ 0 = some ⟨[], 0, 1, 1⟩ :=
  ⟨by decide, detectShapes_uniform ⟨[], 1, 1⟩ 0 0 (by decide)⟩

/-- Witness for C1 on a well-formed-shaped uniform 2×2 input. -/
theorem c1_witness :
    detectShapes ⟨[], 2, 2⟩ 0 = some ⟨[], 0, 2, 2⟩
    ∧ ((⟨[], 0, 2, 2⟩ : DetectionResult).processingTime = 0
       ∧ (⟨[], 0, 2, 2⟩ : DetectionResult).imageWidth = 2
       ∧ (⟨[], 0, 2, 2⟩ : DetectionResult).imageHeight = 2) :=
  ⟨detectShapes_uniform ⟨[], 2, 2⟩ 0 0 (by decide),
   c1_normal_result ⟨[], 2, 2⟩ 0 ⟨[], 0, 2, 2⟩
     (detectShapes_uniform ⟨[], 2, 2⟩ 0 0 (by decide))⟩

/-- The runtime invariant of every emitted shape: one of the six runtime
type strings, confidence in `[0, 1]`. -/
def ShapeOk (s : DetectedShape) : Prop :=
  (s.type = "circle" ∨ s.type = "triangle" ∨ s.type = "rectangle"
    ∨ s.type = "square" ∨ s.type = "pentagon" ∨ s.type = "star")
  ∧ 0 ≤ s.confidence ∧ s.confidence ≤ 1

/-- Every shape the per-blob classifier emits satisfies the invariant; the
only non-literal confidence is the circle's `min(compactness, 1)`, bounded
below by the branch condition `compactness > 0.95`. -/
theorem classifyBlob_shape_ok (w h : ℕ) (blob : List Pix) (s : DetectedShape)
    (hs : classifyBlob w h blob = some (some s)) : ShapeOk s := by
  unfold classifyBlob at hs
  split at hs
  · simp at hs
  · split at hs
    · exact absurd hs (by simp)
    · dsimp only at hs
      split at hs
      · simp at hs
      · split at hs
        · -- circle
          rename_i hcomp2
          simp only [Option.some.injEq] at hs
          rw [← hs]
          refine ⟨Or.inl rfl, ?_, ?_⟩
          · simp only []
            rw [not_lt] at *
            exact le_min (by linarith) (by norm_num)
          · exact min_le_right _ _
        · split at hs
          · exact absurd hs (by simp)
          · split at hs
            · -- star
              simp only [Option.some.injEq] at hs
              rw [← hs]
              exact ⟨by simp, by norm_num, by norm_num⟩
            · split at hs
              · -- pentagon
                simp only [Option.some.injEq] at hs
                rw [← hs]
                exact ⟨by simp, by norm_num, by norm_num⟩
              · split at hs
                · split at hs
                  · -- noisy square
                    simp only [Option.some.injEq] at hs
                    rw [← hs]
                    exact ⟨by simp, by norm_num, by norm_num⟩
                  · -- triangle
                    simp only [Option.some.injEq] at hs
                    rw [← hs]
                    exact ⟨by simp, by norm_num, by norm_num⟩
                · split at hs
                  · split at hs
                    · -- square by side ratio
                      simp only [Option.some.injEq] at hs
                      rw [← hs]
                      exact ⟨by simp, by norm_num, by norm_num⟩
                    · -- rectangle
                      simp only [Option.some.injEq] at hs
                      rw [← hs]
                      exact ⟨by simp, by norm_num, by norm_num⟩
                  · split at hs
                    · -- compactness-band square
                      simp only [Option.some.injEq] at hs
                      rw [← hs]
                      exact ⟨by simp, by norm_num, by norm_num⟩
                    · split at hs
                      · -- compactness-band rectangle
                        simp only [Option.some.injEq] at hs
                        rw [← hs]
                        exact ⟨by simp, by norm_num, by norm_num⟩
                      · simp at hs

/-- Lift of `classifyBlob_shape_ok` along `mapM`. -/
theorem mapM_classify_ok (w h : ℕ) :
    ∀ (blobs : List (List Pix)) (cls : List (Option DetectedShape)),
      blobs.mapM (classifyBlob w h) = some cls →
      ∀ os ∈ cls, ∀ s, os = some s → ShapeOk s := by
  intro blobs
  induction blobs with
  | nil =>
    intro cls hcls os hos s hsome
    simp only [List.mapM_nil, pure, Option.some.injEq] at hcls
    rw [← hcls] at hos
    simp at hos
  | cons b rest ih =>
    intro cls hcls os hos s hsome
    rw [List.mapM_cons] at hcls
    cases hb : classifyBlob w h b with
    | none => rw [hb] at hcls; simp at hcls
    | some o =>
      rw [hb] at hcls
      cases hrest : rest.mapM (classifyBlob w h) with
      | none =>
        rw [hrest] at hcls
        simp at hcls
      | some os2 =>
        rw [hrest] at hcls
        simp only [Option.bind_eq_bind, Option.some_bind, pure,
          Option.some.injEq] at hcls
        rw [← hcls] at hos
        rcases List.mem_cons.mp hos with rfl | htail
        · exact classifyBlob_shape_ok w h b s (by rw [hb, hsome])
        · exact ih os2 hrest os htail s hsome

/-- Claim C2: every `DetectedShape` in a returned shapes list has a type
among circle, triangle, rectangle, square, pentagon, star, and a
confidence in `[0, 1]`. -/
theorem c2_shape_invariants (img : ImageData) (t : ℚ) (r : DetectionResult)
    (hr : detectShapes img t = some r) :
    r.shapes.Forall ShapeOk := by
  rw [detectShapes_eq, Option.map_eq_some'] at hr
  obtain ⟨cls, hcls, hr2⟩ := hr
  rw [← hr2]
  rw [List.forall_iff_forall_mem]
  intro s hsmem
  have h2 : some s ∈ cls := by
    simpa using List.reduceOption_mem_iff.mp hsmem
  exact mapM_classify_ok img.width img.height _ cls hcls (some s) h2 s rfl

/-- Witness for C2 on a uniform 3×3 input (empty shapes list). -/
theorem c2_witness :
    detectShapes ⟨[], 3, 3⟩ 0 = some ⟨[], 0, 3, 3⟩
    ∧ (⟨[], 0, 3, 3⟩ : DetectionResult).shapes.Forall ShapeOk :=
  ⟨detectShapes_uniform ⟨[], 3, 3⟩ 0 0 (by decide),
   c2_shape_invariants ⟨[], 3, 3⟩ 0 ⟨[], 0, 3, 3⟩
     (detectShapes_uniform ⟨[], 3, 3⟩ 0 0 (by decide))⟩

/-- Claim C10: detection is deterministic apart from timing.  Two runs on
the same pixel data and dimensions return identical shapes lists (same
types, confidences, boxes, centers, areas, in the same order) and
identical echoed dimensions; only `processingTime` — the ambient clock
input — may differ, and one run returns iff the other does. -/
theorem c10_deterministic_modulo_time (img : ImageData) (t1 t2 : ℚ) :
    (detectShapes img t1).map DetectionResult.shapes
      = (detectShapes img t2).map DetectionResult.shapes
    ∧ (detectShapes img t1).map DetectionResult.imageWidth
      = (detectShapes img t2).map DetectionResult.imageWidth
    ∧ (detectShapes img t1).map DetectionResult.imageHeight
      = (detectShapes img t2).map DetectionResult.imageHeight
    ∧ ((detectShapes img t1).isSome ↔ (detectShapes img t2).isSome) := by
  rw [detectShapes_eq img t1, detectShapes_eq img t2]
  cases List.mapM (classifyBlob img.width img.height)
      (findContours (otsuBinarize (toGrayscale img) img.width img.height)
        img.width img.height) with
  | none => exact ⟨rfl, rfl, rfl, Iff.rfl⟩
  | some cls => exact ⟨rfl, rfl, rfl, Iff.rfl⟩

/-! ## Proofs: the RDP development (C7)

Distance basics: the distance is NaN (`none`) exactly for coincident
endpoints, the endpoint values themselves are at distance 0 (or NaN), and
every defined distance is nonnegative. -/

theorem pld_none_iff (p p1 p2 : Point) :
    pointLineDistance p p1 p2 = none ↔ p1 = p2 := by
  unfold pointLineDistance
  constructor
  · intro hnone
    by_cases hden : Real.sqrt ((p2.y - p1.y) * (p2.y - p1.y)
        + (p2.x - p1.x) * (p2.x - p1.x)) = 0
    · rw [Real.sqrt_eq_zero'] at hden
      have h1 : (p2.y - p1.y) * (p2.y - p1.y) + (p2.x - p1.x) * (p2.x - p1.x) = 0 := by
        nlinarith [sq_nonneg (p2.y - p1.y), sq_nonneg (p2.x - p1.x)]
      have h2 : p2.y - p1.y = 0 ∧ p2.x - p1.x = 0 := by
        constructor <;> nlinarith [sq_nonneg (p2.y - p1.y), sq_nonneg (p2.x - p1.x)]
      cases p1; cases p2
      simp only [Point.mk.injEq]
      constructor <;> [linarith [h2.2]; linarith [h2.1]]
    · rw [if_neg hden] at hnone
      exact absurd hnone (by simp)
  · intro h
    subst h
    simp

theorem pld_some_nonneg (p p1 p2 : Point) (d : ℝ)
    (h : pointLineDistance p p1 p2 = some d) : 0 ≤ d := by
  unfold pointLineDistance at h
  by_cases hden : Real.sqrt ((p2.y - p1.y) * (p2.y - p1.y)
      + (p2.x - p1.x) * (p2.x - p1.x)) = 0
  · rw [if_pos hden] at h
    exact absurd h (by simp)
  · rw [if_neg hden] at h
    simp only [Option.some.injEq] at h
    rw [← h]
    apply div_nonneg (abs_nonneg _)
    exact Real.sqrt_nonneg _

theorem pld_left_endpoint (p1 p2 : Point) (d : ℝ)
    (h : pointLineDistance p1 p1 p2 = some d) : d = 0 := by
  unfold pointLineDistance at h
  by_cases hden : Real.sqrt ((p2.y - p1.y) * (p2.y - p1.y)
      + (p2.x - p1.x) * (p2.x - p1.x)) = 0
  · rw [if_pos hden] at h
    exact absurd h (by simp)
  · rw [if_neg hden] at h
    simp only [Option.some.injEq] at h
    rw [← h]
    have hnum : (p2.y - p1.y) * p1.x - (p2.x - p1.x) * p1.y
        + p2.x * p1.y - p2.y * p1.x = 0 := by ring
    rw [hnum]
    simp

theorem pld_right_endpoint (p1 p2 : Point) (d : ℝ)
    (h : pointLineDistance p2 p1 p2 = some d) : d = 0 := by
  unfold pointLineDistance at h
  by_cases hden : Real.sqrt ((p2.y - p1.y) * (p2.y - p1.y)
      + (p2.x - p1.x) * (p2.x - p1.x)) = 0
  · rw [if_pos hden] at h
    exact absurd h (by simp)
  · rw [if_neg hden] at h
    simp only [Option.some.injEq] at h
    rw [← h]
    have hnum : (p2.y - p1.y) * p2.x - (p2.x - p1.x) * p2.y
        + p2.x * p1.y - p2.y * p1.x = 0 := by ring
    rw [hnum]
    simp

/-- Post-conditions of the `(dmax, index)` fold: the running maximum only
grows; the result is either the seed or a strict update at an entry of the
list; every defined distance in the list is bounded by the final maximum;
and entries with index below the final winner have strictly smaller
defined distances (first-strict-maximum semantics of `d > dmax`). -/
theorem scanMax_post (p0 pe : Point) :
    ∀ (l : List (ℕ × Point)) (acc : ℝ × ℕ),
      (∀ jb ∈ l, acc.2 < jb.1) →
      l.Pairwise (fun a b => a.1 < b.1) →
      acc.1 ≤ (scanMax p0 pe l acc).1
      ∧ (scanMax p0 pe l acc = acc
         ∨ ∃ q, ((scanMax p0 pe l acc).2, q) ∈ l
             ∧ pointLineDistance q p0 pe = some (scanMax p0 pe l acc).1
             ∧ acc.1 < (scanMax p0 pe l acc).1)
      ∧ (∀ iq ∈ l, ∀ v, pointLineDistance iq.2 p0 pe = some v
          → v ≤ (scanMax p0 pe l acc).1)
      ∧ (∀ iq ∈ l, iq.1 < (scanMax p0 pe l acc).2 → ∀ v,
          pointLineDistance iq.2 p0 pe = some v → v < (scanMax p0 pe l acc).1) := by
  intro l
  induction l with
  | nil =>
    intro acc hacc hpw
    refine ⟨le_refl _, Or.inl rfl, ?_, ?_⟩
    · intro iq hiq; simp at hiq
    · intro iq hiq; simp at hiq
  | cons e rest ih =>
    intro acc hacc hpw
    obtain ⟨i, p⟩ := e
    have hpw2 := (List.pairwise_cons.mp hpw).2
    have hhead := (List.pairwise_cons.mp hpw).1
    have hi : acc.2 < i := hacc (i, p) (by simp)
    cases hd : pointLineDistance p p0 pe with
    | none =>
      have hstep : scanMax p0 pe ((i, p) :: rest) acc = scanMax p0 pe rest acc := by
        conv_lhs => rw [scanMax]
        rw [hd]
      rw [hstep]
      obtain ⟨g1, g2, g3, g4⟩ := ih acc (fun jb hjb => hacc jb (by simp [hjb])) hpw2
      refine ⟨g1, ?_, ?_, ?_⟩
      · rcases g2 with h | ⟨q, hq, hqd, hqlt⟩
        · exact Or.inl h
        · exact Or.inr ⟨q, by simp [hq], hqd, hqlt⟩
      · intro iq hiq v hv
        rcases List.mem_cons.mp hiq with rfl | htail
        · rw [hd] at hv; exact absurd hv (by simp)
        · exact g3 iq htail v hv
      · intro iq hiq hlt v hv
        rcases List.mem_cons.mp hiq with rfl | htail
        · rw [hd] at hv; exact absurd hv (by simp)
        · exact g4 iq htail hlt v hv
    | some d =>
      by_cases hup : acc.1 < d
      · have hstep : scanMax p0 pe ((i, p) :: rest) acc
            = scanMax p0 pe rest (d, i) := by
          conv_lhs => rw [scanMax]
          rw [hd]
          show scanMax p0 pe rest (if acc.1 < d then (d, i) else acc) = _
          rw [if_pos hup]
        rw [hstep]
        obtain ⟨g1, g2, g3, g4⟩ := ih (d, i) (fun jb hjb => hhead jb hjb) hpw2
        refine ⟨le_trans (le_of_lt hup) g1, ?_, ?_, ?_⟩
        · rcases g2 with h | ⟨q, hq, hqd, hqlt⟩
          · exact Or.inr ⟨p, by rw [h]; simp, by rw [h]; exact hd,
              by rw [h]; exact hup⟩
          · exact Or.inr ⟨q, by simp [hq], hqd, lt_trans hup hqlt⟩
        · intro iq hiq v hv
          rcases List.mem_cons.mp hiq with rfl | htail
          · rw [hd] at hv
            simp only [Option.some.injEq] at hv
            rw [← hv]
            exact g1
          · exact g3 iq htail v hv
        · intro iq hiq hlt v hv
          rcases List.mem_cons.mp hiq with rfl | htail
          · -- the head entry has index i; the final winner has index ≥ i,
            -- and i < winner means the maximum strictly grew past d
            rw [hd] at hv
            simp only [Option.some.injEq] at hv
            rw [← hv]
            rcases g2 with h | ⟨q, hq, hqd, hqlt⟩
            · rw [h] at hlt
              exact absurd hlt (lt_irrefl i)
            · exact hqlt
          · exact g4 iq htail hlt v hv
      · have hstep : scanMax p0 pe ((i, p) :: rest) acc
            = scanMax p0 pe rest acc := by
          conv_lhs => rw [scanMax]
          rw [hd]
          show scanMax p0 pe rest (if acc.1 < d then (d, i) else acc) = _
          rw [if_neg hup]
        rw [hstep]
        obtain ⟨g1, g2, g3, g4⟩ := ih acc (fun jb hjb => hacc jb (by simp [hjb])) hpw2
        refine ⟨g1, ?_, ?_, ?_⟩
        · rcases g2 with h | ⟨q, hq, hqd, hqlt⟩
          · exact Or.inl h
          · exact Or.inr ⟨q, by simp [hq], hqd, hqlt⟩
        · intro iq hiq v hv
          rcases List.mem_cons.mp hiq with rfl | htail
          · rw [hd] at hv
            simp only [Option.some.injEq] at hv
            rw [← hv]
            exact le_trans (not_lt.mp hup) g1
          · exact g3 iq htail v hv
        · intro iq hiq hlt v hv
          rcases List.mem_cons.mp hiq with rfl | htail
          · rw [hd] at hv
            simp only [Option.some.injEq] at hv
            rw [← hv]
            rcases g2 with h | ⟨q, hq, hqd, hqlt⟩
            · rw [h] at hlt
              exact absurd hlt (not_lt.mpr (le_of_lt hi))
            · exact lt_of_le_of_lt (not_lt.mp hup) hqlt
          · exact g4 iq htail hlt v hv

theorem interiorEnum_length (ps : List Point) :
    (interiorEnum ps).length = ps.length - 2 := by
  unfold interiorEnum
  rw [List.length_dropLast, List.length_drop, List.enum_length]
  omega

theorem interiorEnum_getElem (ps : List Point) (j : ℕ)
    (hj : j < (interiorEnum ps).length) (hj3 : j + 1 < ps.length) :
    (interiorEnum ps)[j] = (j + 1, ps[j + 1]) := by
  have hj2 := hj
  rw [interiorEnum_length] at hj2
  unfold interiorEnum
  rw [List.getElem_dropLast, List.getElem_drop, List.getElem_enum]
  simp only [Nat.add_comm 1 j]

theorem interiorEnum_mem_iff (ps : List Point) (i : ℕ) (q : Point) :
    (i, q) ∈ interiorEnum ps
      ↔ 1 ≤ i ∧ i + 1 < ps.length ∧ ps[i]? = some q := by
  constructor
  · intro hmem
    obtain ⟨j, hj, hjeq⟩ := List.mem_iff_getElem.mp hmem
    have hj2 := hj
    rw [interiorEnum_length] at hj2
    rw [interiorEnum_getElem ps j hj (by omega)] at hjeq
    obtain ⟨h1, h2⟩ := Prod.mk.injEq .. ▸ hjeq
    refine ⟨by omega, by omega, ?_⟩
    rw [← h1]
    rw [List.getElem?_eq_getElem (by omega)]
    rw [← h2]
  · intro ⟨h1, h2, h3⟩
    rw [List.mem_iff_getElem]
    refine ⟨i - 1, by rw [interiorEnum_length]; omega, ?_⟩
    rw [interiorEnum_getElem ps (i - 1) (by rw [interiorEnum_length]; omega)
      (by omega)]
    have hi : i - 1 + 1 = i := by omega
    rw [List.getElem?_eq_some] at h3
    obtain ⟨hb, hq⟩ := h3
    simp only [Prod.mk.injEq]
    constructor
    · omega
    · rw [← hq]
      congr 1

theorem interiorEnum_pairwise (ps : List Point) :
    (interiorEnum ps).Pairwise (fun a b => a.1 < b.1) := by
  rw [List.pairwise_iff_getElem]
  intro i j hi hj hij
  have hi2 := hi
  have hj2 := hj
  rw [interiorEnum_length] at hi2 hj2
  rw [interiorEnum_getElem ps i hi (by omega), interiorEnum_getElem ps j hj (by omega)]
  simpa using hij

theorem interiorEnum_index_pos (ps : List Point) :
    ∀ jb ∈ interiorEnum ps, (0 : ℕ) < jb.1 := by
  intro jb hjb
  obtain ⟨i, q⟩ := jb
  rw [interiorEnum_mem_iff] at hjb
  exact hjb.1

/-- If an entry of the list attains a positive value `D` at index `k`, all
defined values are `≤ D`, and entries before `k` are strictly below `D`,
then the scan returns exactly `(D, k)`. -/
theorem scanMax_determined (p0 pe : Point) (l : List (ℕ × Point))
    (hpw : l.Pairwise (fun a b => a.1 < b.1))
    (hpos : ∀ jb ∈ l, (0 : ℕ) < jb.1)
    (D : ℝ) (k : ℕ) (hD : 0 < D) (q0 : Point)
    (hk : (k, q0) ∈ l) (hkd : pointLineDistance q0 p0 pe = some D)
    (hub : ∀ iq ∈ l, ∀ v, pointLineDistance iq.2 p0 pe = some v → v ≤ D)
    (hlt : ∀ iq ∈ l, iq.1 < k → ∀ v,
        pointLineDistance iq.2 p0 pe = some v → v < D) :
    scanMax p0 pe l (0, 0) = (D, k) := by
  obtain ⟨g1, g2, g3, g4⟩ := scanMax_post p0 pe l (0, 0) (fun jb hjb => hpos jb hjb) hpw
  rcases g2 with h | ⟨q, hq, hqd, _⟩
  · -- no update at all: then D ≤ 0, contradiction
    have := g3 (k, q0) hk D hkd
    rw [h] at this
    exact absurd (lt_of_lt_of_le hD this) (lt_irrefl 0)
  · -- winner exists: its value is D and its index is k
    have hval : (scanMax p0 pe l (0, 0)).1 = D := by
      have hle : (scanMax p0 pe l (0, 0)).1 ≤ D := hub _ hq _ hqd
      have hge := g3 (k, q0) hk D hkd
      linarith
    have hidx : (scanMax p0 pe l (0, 0)).2 = k := by
      by_contra hne
      rcases Nat.lt_or_ge (scanMax p0 pe l (0, 0)).2 k with hlt2 | hge2
      · -- winner index below k: its value is < D but equals D
        have := hlt (((scanMax p0 pe l (0, 0)).2), q) hq hlt2 _ hqd
        rw [hval] at this
        exact absurd this (lt_irrefl D)
      · have hk2 : k < (scanMax p0 pe l (0, 0)).2 := by omega
        have := g4 (k, q0) hk hk2 D hkd
        rw [hval] at this
        exact absurd this (lt_irrefl D)
    rw [Prod.ext_iff]
    exact ⟨hval, hidx⟩

/-! List utilities for the RDP slicing arguments. -/

theorem head_take_pos {α : Type} (l : List α) (n : ℕ) (hn : 1 ≤ n) :
    (l.take n).head? = l.head? := by
  cases l with
  | nil => simp
  | cons a t =>
    cases n with
    | zero => omega
    | succ m => simp [List.take_succ_cons]

theorem head_dropLast_of_two {α : Type} (l : List α) (h : 2 ≤ l.length) :
    l.dropLast.head? = l.head? := by
  cases l with
  | nil => simp at h
  | cons a t =>
    cases t with
    | nil => simp at h
    | cons b t2 => simp [List.dropLast_cons₂]

theorem getLast_append_ne_nil {α : Type} (A B : List α) (hB : B ≠ []) :
    (A ++ B).getLast? = B.getLast? :=
  List.getLast?_append_of_ne_nil A hB

theorem getLast_take_eq (l : List Point) (n : ℕ) (h1 : 1 ≤ n)
    (h2 : n ≤ l.length) : (l.take n).getLast? = l[n - 1]? := by
  rw [List.getLast?_eq_getElem?]
  have hlt : (l.take n).length = n := by
    rw [List.length_take]
    omega
  rw [hlt]
  rw [List.getElem?_take]
  rw [if_pos (by omega)]

theorem getLast_drop_of_lt (l : List Point) (k : ℕ) (h : k < l.length) :
    (l.drop k).getLast? = l.getLast? := by
  rw [List.getLast?_eq_getElem?, List.getLast?_eq_getElem?]
  rw [List.length_drop]
  rw [List.getElem?_drop]
  congr 1
  omega

theorem dropLast_sublist_concat {α : Type} (b : α) :
    ∀ (B A : List α), A.Sublist (B ++ [b]) → A.dropLast.Sublist B := by
  intro B
  induction B with
  | nil =>
    intro A h
    rcases List.sublist_singleton.mp h with h1 | h1 <;> subst h1 <;> simp
  | cons x B ih =>
    intro A h
    cases A with
    | nil => simp
    | cons a A2 =>
      rw [List.cons_append] at h
      cases h with
      | cons _ h2 =>
        exact (ih (a :: A2) h2).cons x
      | cons₂ _ h2 =>
        cases A2 with
        | nil => simp
        | cons c A3 =>
          rw [List.dropLast_cons₂]
          exact (ih (c :: A3) h2).cons₂ x

theorem head_last_pair_sublist {α : Type} (l : List α) (h2 : 2 ≤ l.length)
    (a z : α) (ha : l.head? = some a) (hz : l.getLast? = some z) :
    [a, z].Sublist l := by
  cases l with
  | nil => simp at h2
  | cons x t =>
    have hx : x = a := by
      simp only [List.head?_cons, Option.some.injEq] at ha
      exact ha
    subst hx
    have htne : t ≠ [] := by
      intro hc
      subst hc
      simp at h2
    have hzt : t.getLast? = some z := by
      cases t with
      | nil => exact absurd rfl htne
      | cons c t2 =>
        rw [List.getLast?_cons_cons] at hz
        exact hz
    have hzmem : z ∈ t := by
      rw [List.getLast?_eq_getLast_of_ne_nil htne] at hzt
      simp only [Option.some.injEq] at hzt
      rw [← hzt]
      exact List.getLast_mem htne
    exact (List.singleton_sublist.mpr hzmem).cons₂ x

/-- Structure of any successful `rdp` run with nonnegative tolerance: the
output is a sublist of the input preserving the first and last points, of
length at least `min (length, 2)`. -/
theorem rdp_core (eps : ℝ) (heps : 0 ≤ eps) :
    ∀ (N : ℕ) (ps : List Point) (n : ℕ) (r : List Point),
      ps.length ≤ N → rdpFuel default n ps eps = some r →
      r.Sublist ps ∧ r.head? = ps.head? ∧ r.getLast? = ps.getLast?
        ∧ min ps.length 2 ≤ r.length := by
  intro N
  induction N with
  | zero =>
    intro ps n r hlen h
    have hnil : ps = [] := List.length_eq_zero.mp (by omega)
    subst hnil
    cases n with
    | zero => exact absurd h (by rw [rdpFuel]; simp)
    | succ m =>
      rw [rdpFuel, if_pos (by simp)] at h
      simp only [Option.some.injEq] at h
      subst h
      simp
  | succ N ih =>
    intro ps n r hlen h
    cases n with
    | zero => exact absurd h (by rw [rdpFuel]; simp)
    | succ m =>
      by_cases h3 : ps.length < 3
      · rw [rdpFuel, if_pos h3] at h
        simp only [Option.some.injEq] at h
        subst h
        exact ⟨List.Sublist.refl ps, rfl, rfl, min_le_left _ _⟩
      · rw [rdpFuel, if_neg h3] at h
        dsimp only at h
        obtain ⟨g1, g2, g3, g4⟩ := scanMax_post (ps.getD 0 default)
          (ps.getD (ps.length - 1) default) (interiorEnum ps) (0, 0)
          (interiorEnum_index_pos ps) (interiorEnum_pairwise ps)
        by_cases hcmp : eps < (scanMax (ps.getD 0 default)
            (ps.getD (ps.length - 1) default) (interiorEnum ps) (0, 0)).1
        · rw [if_pos hcmp] at h
          -- the winner entry exists and has index in the interior
          rcases g2 with hz | ⟨q, hq, hqd, _⟩
          · rw [hz] at hcmp
            exact absurd hcmp (by simpa using heps)
          · rw [interiorEnum_mem_iff] at hq
            obtain ⟨hq1, hq2, hq3⟩ := hq
            set idx := (scanMax (ps.getD 0 default)
              (ps.getD (ps.length - 1) default) (interiorEnum ps) (0, 0)).2 with hidx
            cases hr1 : rdpFuel default m (ps.take (idx + 1)) eps with
            | none => rw [hr1] at h; exact absurd h (by simp)
            | some r1 =>
              cases hr2 : rdpFuel default m (ps.drop idx) eps with
              | none => rw [hr1, hr2] at h; exact absurd h (by simp)
              | some r2 =>
                rw [hr1, hr2] at h
                simp only [Option.some.injEq] at h
                have hlen1 : (ps.take (idx + 1)).length = idx + 1 := by
                  rw [List.length_take]
                  omega
                have hlen2 : (ps.drop idx).length = ps.length - idx := by
                  rw [List.length_drop]
                obtain ⟨s1, e1, l1, m1⟩ := ih (ps.take (idx + 1)) m r1
                  (by omega) hr1
                obtain ⟨s2, e2, l2, m2⟩ := ih (ps.drop idx) m r2
                  (by omega) hr2
                have hm1 : 2 ≤ r1.length := by
                  rw [hlen1] at m1
                  omega
                have hm2 : 2 ≤ r2.length := by
                  rw [hlen2] at m2
                  omega
                subst h
                refine ⟨?_, ?_, ?_, ?_⟩
                · -- sublist: split ps at idx
                  have hsp : ps.take idx ++ ps.drop idx = ps := List.take_append_drop idx ps
                  have htk : ps.take (idx + 1) = ps.take idx ++ [q] := by
                    rw [List.take_succ, hq3]
                    rfl
                  have hsub1 : r1.dropLast.Sublist (ps.take idx) := by
                    apply dropLast_sublist_concat q (ps.take idx) r1
                    rw [← htk]
                    exact s1
                  conv_rhs => rw [← hsp]
                  exact List.Sublist.append hsub1 s2
                · -- head preserved
                  rw [List.head?_append]
                  have hne : r1.dropLast ≠ [] := by
                    intro hc
                    have := congrArg List.length hc
                    rw [List.length_dropLast] at this
                    simp at this
                    omega
                  obtain ⟨a, ha⟩ := List.exists_mem_of_ne_nil _ hne
                  cases hhd : r1.dropLast.head? with
                  | none => rw [List.head?_eq_none_iff] at hhd; exact absurd hhd hne
                  | some a0 =>
                    rw [Option.or_some]
                    rw [← hhd]
                    rw [head_dropLast_of_two r1 hm1]
                    rw [e1]
                    exact head_take_pos ps (idx + 1) (by omega)
                · -- last preserved
                  rw [getLast_append_ne_nil _ _ (by
                    intro hc
                    rw [hc] at hm2
                    simp at hm2)]
                  rw [l2]
                  exact getLast_drop_of_lt ps idx (by omega)
                · -- length at least 2
                  rw [List.length_append, List.length_dropLast]
                  omega
        · rw [if_neg hcmp] at h
          simp only [Option.some.injEq] at h
          subst h
          -- the two retained points are the head and the last of ps
          have hhead : ps.head? = some (ps.getD 0 default) := by
            rw [List.head?_eq_getElem?, List.getD_eq_getElem?_getD,
              List.getElem?_eq_getElem (show 0 < ps.length by omega)]
            rfl
          have hlast : ps.getLast? = some (ps.getD (ps.length - 1) default) := by
            rw [List.getLast?_eq_getElem?, List.getD_eq_getElem?_getD,
              List.getElem?_eq_getElem (show ps.length - 1 < ps.length by omega)]
            rfl
          refine ⟨?_, ?_, ?_, ?_⟩
          · exact head_last_pair_sublist ps (by omega) _ _ hhead hlast
          · rw [hhead]
            rfl
          · rw [List.getLast?_cons_cons, hlast]
            rfl
          · simp only [List.length_cons, List.length_singleton]
            omega

/-- A sublist embedding bounds positions on both sides: the `j`-th element
of a sublist `A` of `B` occurs in `B` at a position `i` with
`j ≤ i ≤ B.length − A.length + j`. -/
theorem sublist_getElem_exists {α : Type} {A B : List α} (hs : A.Sublist B) :
    ∀ j, j < A.length →
      ∃ i, i < B.length ∧ j ≤ i ∧ i + A.length ≤ B.length + j ∧ A[j]? = B[i]? := by
  induction hs with
  | slnil =>
    intro j hj
    simp at hj
  | cons b hs2 ih =>
    intro j hj
    obtain ⟨i, hi, h1, h2, h3⟩ := ih j hj
    refine ⟨i + 1, ?_, by omega, ?_, ?_⟩
    · simp only [List.length_cons]
      omega
    · simp only [List.length_cons]
      omega
    · rw [List.getElem?_cons_succ]
      exact h3
  | cons₂ a hs2 ih =>
    intro j hj
    cases j with
    | zero =>
      have hle := hs2.length_le
      refine ⟨0, by simp only [List.length_cons]; omega, le_refl 0, ?_, by simp⟩
      simp only [List.length_cons]
      omega
    | succ j2 =>
      simp only [List.length_cons] at hj
      obtain ⟨i, hi, h1, h2, h3⟩ := ih j2 (by omega)
      refine ⟨i + 1, ?_, by omega, ?_, ?_⟩
      · simp only [List.length_cons]
        omega
      · simp only [List.length_cons]
        omega
      · rw [List.getElem?_cons_succ, List.getElem?_cons_succ]
        exact h3

/-- An interior entry of a sublist is (as a value) an interior entry of the
larger list: the embedding cannot move it to either endpoint. -/
theorem sublist_interior_exists (A B : List Point) (hs : A.Sublist B)
    (j : ℕ) (q : Point) (hj : (j, q) ∈ interiorEnum A) :
    ∃ i, (i, q) ∈ interiorEnum B := by
  rw [interiorEnum_mem_iff] at hj
  obtain ⟨hj1, hj2, hj3⟩ := hj
  obtain ⟨i, hi, h1, h2, h3⟩ := sublist_getElem_exists hs j (by omega)
  refine ⟨i, ?_⟩
  rw [interiorEnum_mem_iff]
  refine ⟨by omega, by omega, ?_⟩
  rw [← h3]
  exact hj3

/-- With nonnegative tolerance, fuel exceeding the list length always
suffices: the recursion of `rdp` terminates (both slices are strictly
shorter because the split index is interior). -/
theorem rdp_some (eps : ℝ) (heps : 0 ≤ eps) :
    ∀ (n : ℕ) (ps : List Point), ps.length < n →
      ∃ r, rdpFuel default n ps eps = some r := by
  intro n
  induction n with
  | zero =>
    intro ps h
    omega
  | succ m ih =>
    intro ps hlen
    by_cases h3 : ps.length < 3
    · exact ⟨ps, by rw [rdpFuel, if_pos h3]⟩
    · obtain ⟨g1, g2, g3, g4⟩ := scanMax_post (ps.getD 0 default)
        (ps.getD (ps.length - 1) default) (interiorEnum ps) (0, 0)
        (interiorEnum_index_pos ps) (interiorEnum_pairwise ps)
      by_cases hcmp : eps < (scanMax (ps.getD 0 default)
          (ps.getD (ps.length - 1) default) (interiorEnum ps) (0, 0)).1
      · rcases g2 with hz | ⟨q, hq, hqd, _⟩
        · rw [hz] at hcmp
          exact absurd hcmp (by simpa using heps)
        · rw [interiorEnum_mem_iff] at hq
          obtain ⟨hq1, hq2, hq3⟩ := hq
          set idx := (scanMax (ps.getD 0 default)
            (ps.getD (ps.length - 1) default) (interiorEnum ps) (0, 0)).2 with hidx
          obtain ⟨r1, hr1⟩ := ih (ps.take (idx + 1)) (by rw [List.length_take]; omega)
          obtain ⟨r2, hr2⟩ := ih (ps.drop idx) (by rw [List.length_drop]; omega)
          refine ⟨r1.dropLast ++ r2, ?_⟩
          rw [rdpFuel, if_neg h3]
          dsimp only
          rw [if_pos hcmp, ← hidx, hr1, hr2]
      · refine ⟨[ps.getD 0 default, ps.getD (ps.length - 1) default], ?_⟩
        rw [rdpFuel, if_neg h3]
        dsimp only
        rw [if_neg hcmp]

/-- Any output of the recursion with nonnegative tolerance is a fixed
point: running `rdpFuel` on it (with sufficient fuel) returns it
unchanged.  The scan over the output finds the same maximal distance at
the position of the original split point, so the recursion splits the
output into exactly the two halves it was assembled from. -/
theorem rdp_fix (eps : ℝ) (heps : 0 ≤ eps) :
    ∀ (N : ℕ) (ps : List Point) (n : ℕ) (r : List Point),
      ps.length ≤ N → rdpFuel default n ps eps = some r →
      ∀ n', r.length < n' → rdpFuel default n' r eps = some r := by
  intro N
  induction N with
  | zero =>
    intro ps n r hlen h n' hn'
    have hnil : ps = [] := List.length_eq_zero.mp (by omega)
    subst hnil
    cases n with
    | zero => exact absurd h (by rw [rdpFuel]; simp)
    | succ m =>
      rw [rdpFuel, if_pos (by simp)] at h
      simp only [Option.some.injEq] at h
      subst h
      cases n' with
      | zero => omega
      | succ m' => rw [rdpFuel, if_pos (by simp)]
  | succ N ih =>
    intro ps n r hlen h n' hn'
    cases n with
    | zero => exact absurd h (by rw [rdpFuel]; simp)
    | succ m =>
      by_cases h3 : ps.length < 3
      · rw [rdpFuel, if_pos h3] at h
        simp only [Option.some.injEq] at h
        subst h
        cases n' with
        | zero => omega
        | succ m' => rw [rdpFuel, if_pos h3]
      · have h0 := h
        rw [rdpFuel, if_neg h3] at h
        dsimp only at h
        obtain ⟨g1, g2, g3, g4⟩ := scanMax_post (ps.getD 0 default)
          (ps.getD (ps.length - 1) default) (interiorEnum ps) (0, 0)
          (interiorEnum_index_pos ps) (interiorEnum_pairwise ps)
        by_cases hcmp : eps < (scanMax (ps.getD 0 default)
            (ps.getD (ps.length - 1) default) (interiorEnum ps) (0, 0)).1
        · rw [if_pos hcmp] at h
          rcases g2 with hz | ⟨q, hq, hqd, _⟩
          · rw [hz] at hcmp
            exact absurd hcmp (by simpa using heps)
          · rw [interiorEnum_mem_iff] at hq
            obtain ⟨hq1, hq2, hq3⟩ := hq
            set idx := (scanMax (ps.getD 0 default)
              (ps.getD (ps.length - 1) default) (interiorEnum ps) (0, 0)).2 with hidx
            set D := (scanMax (ps.getD 0 default)
              (ps.getD (ps.length - 1) default) (interiorEnum ps) (0, 0)).1 with hDdef
            cases hr1 : rdpFuel default m (ps.take (idx + 1)) eps with
            | none => rw [hr1] at h; exact absurd h (by simp)
            | some r1 =>
              cases hr2 : rdpFuel default m (ps.drop idx) eps with
              | none => rw [hr1, hr2] at h; exact absurd h (by simp)
              | some r2 =>
                rw [hr1, hr2] at h
                simp only [Option.some.injEq] at h
                have hco : r = r1.dropLast ++ r2 := h.symm
                have hlen1 : (ps.take (idx + 1)).length = idx + 1 := by
                  rw [List.length_take]
                  omega
                have hlen2 : (ps.drop idx).length = ps.length - idx := by
                  rw [List.length_drop]
                obtain ⟨s1, e1, l1, m1⟩ := rdp_core eps heps (ps.take (idx + 1)).length
                  (ps.take (idx + 1)) m r1 (le_refl _) hr1
                obtain ⟨s2, e2, l2, m2⟩ := rdp_core eps heps (ps.drop idx).length
                  (ps.drop idx) m r2 (le_refl _) hr2
                obtain ⟨sr, er, lr, mr⟩ := rdp_core eps heps ps.length ps (m + 1) r
                  (le_refl _) h0
                have hm1 : 2 ≤ r1.length := by
                  rw [hlen1] at m1
                  omega
                have hm2 : 2 ≤ r2.length := by
                  rw [hlen2] at m2
                  omega
                have hk0 : r1.dropLast.length = r1.length - 1 := List.length_dropLast r1
                set k := r1.length - 1 with hkdef
                have hrlen : r.length = k + r2.length := by
                  rw [hco, List.length_append, hk0]
                have hp0 : r.getD 0 default = ps.getD 0 default := by
                  rw [List.getD_eq_getElem?_getD, List.getD_eq_getElem?_getD,
                    ← List.head?_eq_getElem?, ← List.head?_eq_getElem?, er]
                have hpe : r.getD (r.length - 1) default
                    = ps.getD (ps.length - 1) default := by
                  rw [List.getD_eq_getElem?_getD, List.getD_eq_getElem?_getD,
                    ← List.getLast?_eq_getElem?, ← List.getLast?_eq_getElem?, lr]
                have hr2h : r2.head? = some q := by
                  rw [e2, List.head?_drop]
                  exact hq3
                have hr1l : r1.getLast? = some q := by
                  rw [l1, getLast_take_eq ps (idx + 1) (by omega) (by omega)]
                  simpa using hq3
                have hr1ne : r1 ≠ [] := by
                  intro hc
                  rw [hc] at hm1
                  simp at hm1
                have htake : r.take (k + 1) = r1 := by
                  rw [hco]
                  rw [show k + 1 = r1.dropLast.length + 1 by rw [hk0]]
                  rw [List.take_append 1, List.take_one, hr2h]
                  show r1.dropLast ++ [q] = r1
                  rw [List.getLast?_eq_getLast_of_ne_nil hr1ne] at hr1l
                  simp only [Option.some.injEq] at hr1l
                  rw [← hr1l]
                  exact List.dropLast_append_getLast hr1ne
                have hdrop : r.drop k = r2 := by
                  rw [hco, show k = r1.dropLast.length by rw [hk0], List.drop_left]
                have hrk : r[k]? = some q := by
                  rw [hco, List.getElem?_append]
                  rw [if_neg (by omega)]
                  rw [show k - r1.dropLast.length = 0 by omega]
                  rw [← List.head?_eq_getElem?]
                  exact hr2h
                have hub2 : ∀ iq ∈ interiorEnum r, ∀ v,
                    pointLineDistance iq.2 (ps.getD 0 default)
                      (ps.getD (ps.length - 1) default) = some v → v ≤ D := by
                  intro iq hiq v hv
                  obtain ⟨j2, q2⟩ := iq
                  obtain ⟨i2, hi2⟩ := sublist_interior_exists r ps sr j2 q2 hiq
                  exact g3 (i2, q2) hi2 v hv
                have hlt2 : ∀ iq ∈ interiorEnum r, iq.1 < k → ∀ v,
                    pointLineDistance iq.2 (ps.getD 0 default)
                      (ps.getD (ps.length - 1) default) = some v → v < D := by
                  intro iq hiq hik v hv
                  obtain ⟨j2, q2⟩ := iq
                  have hik2 : j2 < k := hik
                  rw [interiorEnum_mem_iff] at hiq
                  obtain ⟨ha1, ha2, ha3⟩ := hiq
                  rw [hco, List.getElem?_append, if_pos (by omega)] at ha3
                  have hsubd : r1.dropLast.Sublist (ps.take idx) := by
                    apply dropLast_sublist_concat q (ps.take idx) r1
                    rw [← (show ps.take (idx + 1) = ps.take idx ++ [q] by
                      rw [List.take_succ, hq3]; rfl)]
                    exact s1
                  obtain ⟨i2, hb1, hb2, hb3, hb4⟩ :=
                    sublist_getElem_exists hsubd j2 (by omega)
                  have hc4 : (ps.take idx)[i2]? = some q2 := by
                    rw [← hb4]
                    exact ha3
                  rw [List.length_take] at hb1
                  rw [List.getElem?_take] at hc4
                  rw [if_pos (by omega)] at hc4
                  have hmem2 : (i2, q2) ∈ interiorEnum ps := by
                    rw [interiorEnum_mem_iff]
                    exact ⟨by omega, by omega, hc4⟩
                  have hilt : (i2, q2).1 < idx := by
                    show i2 < idx
                    omega
                  exact g4 (i2, q2) hmem2 hilt v hv
                have hDpos : 0 < D := lt_of_le_of_lt heps hcmp
                have hkmem : (k, q) ∈ interiorEnum r := by
                  rw [interiorEnum_mem_iff]
                  exact ⟨by omega, by omega, hrk⟩
                have hdet : scanMax (ps.getD 0 default) (ps.getD (ps.length - 1) default)
                    (interiorEnum r) (0, 0) = (D, k) :=
                  scanMax_determined (ps.getD 0 default) (ps.getD (ps.length - 1) default)
                    (interiorEnum r) (interiorEnum_pairwise r)
                    (interiorEnum_index_pos r) D k hDpos q hkmem hqd hub2 hlt2
                cases n' with
                | zero => omega
                | succ m' =>
                  have h3r : ¬ r.length < 3 := by omega
                  rw [rdpFuel, if_neg h3r]
                  dsimp only
                  rw [hp0, hpe, hdet]
                  rw [if_pos (show eps < (D, k).1 from hcmp)]
                  dsimp only
                  rw [htake, hdrop]
                  have hfix1 : rdpFuel default m' r1 eps = some r1 :=
                    ih (ps.take (idx + 1)) m r1 (by omega) hr1 m' (by omega)
                  have hfix2 : rdpFuel default m' r2 eps = some r2 :=
                    ih (ps.drop idx) m r2 (by omega) hr2 m' (by omega)
                  rw [hfix1, hfix2]
                  show some (r1.dropLast ++ r2) = some r
                  rw [hco]
        · rw [if_neg hcmp] at h
          simp only [Option.some.injEq] at h
          subst h
          cases n' with
          | zero => simp at hn'
          | succ m' => rw [rdpFuel, if_pos (by simp)]

/-! ## Claim theorems: RDP simplification (C7) -/

/-- Claim C7: with nonnegative tolerance the RDP recursion terminates and
its output is a subsequence of the input that keeps the input's first and
last points, and re-running the simplification with the same tolerance on
its own output returns that output unchanged (idempotence).  The
nonnegativity hypothesis is necessary: see
`c7_negative_epsilon_diverges`. -/
theorem c7_rdp_shape (ps : List Point) (eps : ℝ) (heps : 0 ≤ eps) :
    ∃ r, rdp ps eps = some r ∧ r.Sublist ps ∧ r.head? = ps.head?
      ∧ r.getLast? = ps.getLast? ∧ rdp r eps = some r := by
  obtain ⟨r, hr⟩ := rdp_some eps heps (ps.length + 1) ps (by omega)
  obtain ⟨s, e, l, _⟩ := rdp_core eps heps ps.length ps (ps.length + 1) r
    (le_refl _) hr
  exact ⟨r, hr, s, e, l,
    rdp_fix eps heps ps.length ps (ps.length + 1) r (le_refl _) hr
      (r.length + 1) (by omega)⟩

/-- Witness for C7 at the empty polygon and tolerance 0. -/
theorem c7_witness :
    (0 : ℝ) ≤ 0 ∧ ∃ r, rdp ([] : List Point) 0 = some r ∧ r.Sublist []
      ∧ r.head? = ([] : List Point).head?
      ∧ r.getLast? = ([] : List Point).getLast? ∧ rdp r 0 = some r :=
  ⟨le_refl 0, c7_rdp_shape [] 0 (le_refl 0)⟩

/-- The interior point of the collinear counterexample polygon is at a
defined distance 0 from the chord. -/
theorem pld_cex : pointLineDistance ⟨1, 0⟩ ⟨0, 0⟩ ⟨2, 0⟩ = some (0 : ℝ) := by
  show (if Real.sqrt (((0:ℝ) - 0) * ((0:ℝ) - 0) + ((2:ℝ) - 0) * ((2:ℝ) - 0)) = 0
      then none
      else some (|((0:ℝ) - 0) * 1 - ((2:ℝ) - 0) * 0 + 2 * 0 - 0 * 0|
        / Real.sqrt (((0:ℝ) - 0) * ((0:ℝ) - 0) + ((2:ℝ) - 0) * ((2:ℝ) - 0))))
    = some (0 : ℝ)
  rw [show ((0:ℝ) - 0) * ((0:ℝ) - 0) + ((2:ℝ) - 0) * ((2:ℝ) - 0) = 4 by norm_num]
  have hs4 : Real.sqrt 4 ≠ 0 := by
    have hpos : (0:ℝ) < Real.sqrt 4 := Real.sqrt_pos.mpr (by norm_num)
    linarith
  rw [if_neg hs4]
  rw [show |((0:ℝ) - 0) * 1 - ((2:ℝ) - 0) * 0 + 2 * 0 - 0 * 0| = 0 by norm_num]
  rw [zero_div]

/-- The scan over the single interior entry of the counterexample leaves
the accumulator `(0, 0)` unchanged: the distance 0 is not strictly above
the running maximum 0. -/
theorem scan_cex :
    scanMax ⟨0, 0⟩ ⟨2, 0⟩ [(1, ⟨1, 0⟩)] ((0 : ℝ), 0) = ((0 : ℝ), 0) := by
  rw [scanMax, pld_cex]
  show scanMax ⟨0, 0⟩ ⟨2, 0⟩ []
      (if ((0:ℝ), (0:ℕ)).1 < (0:ℝ) then ((0:ℝ), 1) else ((0:ℝ), 0)) = ((0:ℝ), 0)
  rw [if_neg (lt_irrefl (0:ℝ))]
  rw [scanMax]

/-- On the collinear three-point polygon with tolerance −1, every fuel
level runs out: `dmax = 0 > −1` splits at interior index 0, and
`points.slice(0)` is the whole unchanged list, so the recursion never
shrinks its argument. -/
theorem rdpFuel_cex (n : ℕ) :
    rdpFuel default n [(⟨0, 0⟩ : Point), ⟨1, 0⟩, ⟨2, 0⟩] (-1) = none := by
  induction n with
  | zero => rw [rdpFuel]
  | succ m ih =>
    rw [rdpFuel]
    rw [if_neg (by simp)]
    dsimp only
    rw [show [(⟨0, 0⟩ : Point), ⟨1, 0⟩, ⟨2, 0⟩].getD 0 default = ⟨0, 0⟩ from rfl]
    rw [show [(⟨0, 0⟩ : Point), ⟨1, 0⟩, ⟨2, 0⟩].getD
      ([(⟨0, 0⟩ : Point), ⟨1, 0⟩, ⟨2, 0⟩].length - 1) default = ⟨2, 0⟩ from rfl]
    rw [show interiorEnum [(⟨0, 0⟩ : Point), ⟨1, 0⟩, ⟨2, 0⟩]
      = [(1, ⟨1, 0⟩)] from rfl]
    rw [scan_cex]
    rw [if_pos (show (-1:ℝ) < ((0:ℝ), (0:ℕ)).1 by show (-1:ℝ) < (0:ℝ); norm_num)]
    rw [show [(⟨0, 0⟩ : Point), ⟨1, 0⟩, ⟨2, 0⟩].take (((0:ℝ), (0:ℕ)).2 + 1)
      = [(⟨0, 0⟩ : Point)] from rfl]
    rw [show [(⟨0, 0⟩ : Point), ⟨1, 0⟩, ⟨2, 0⟩].drop ((0:ℝ), (0:ℕ)).2
      = [(⟨0, 0⟩ : Point), ⟨1, 0⟩, ⟨2, 0⟩] from rfl]
    rw [ih]
    cases rdpFuel default m [(⟨0, 0⟩ : Point)] (-1) <;> rfl

/-- Counterexample to C7's "for every epsilon": on the collinear polygon
`[(0,0), (1,0), (2,0)]` with `epsilon = −1` the source recursion never
terminates (`dmax = 0 > −1` and the second slice is the unchanged input),
so no output exists at all — modelled by `rdp` returning `none` at every
fuel level. -/
theorem c7_negative_epsilon_diverges :
    rdp [(⟨0, 0⟩ : Point), ⟨1, 0⟩, ⟨2, 0⟩] (-1) = none :=
  rdpFuel_cex 4

/-! ## Claim C6: connected-component extraction

The specification notions (maximal 8-connected foreground region, row-major
scan order) are defined here mathematically; `findContours`, `floodFill`
and `floodNbrs` above are the source translations they are compared to. -/

/-- The foreground of the mask: in-bounds cells with mask value 1 — the
cells the scan seeds on and the flood fill enqueues. -/
def fgSet (m : List (List ℕ)) (w h : ℕ) : Finset Pix :=
  (rectC w h).filter (fun p => maskAt m p.1 p.2 = 1)

/-- One connectivity step landing in the set `S`. -/
def adjStep (S : Finset Pix) (a b : Pix) : Prop := b ∈ S ∧ adjacent a b

/-- 8-connected reachability inside `S`: for `s ∈ S`, the specification's
"maximal 8-connected foreground region" of `s` is `{p | reach S s p}`. -/
def reach (S : Finset Pix) (a b : Pix) : Prop :=
  Relation.ReflTransGen (adjStep S) a b

/-- Strict row-major ("scan") order on pixels: topmost first, then
leftmost. -/
def rmLt (p q : Pix) : Prop := p.2 < q.2 ∨ (p.2 = q.2 ∧ p.1 < q.1)

/-- Non-strict row-major order. -/
def rmLe (p q : Pix) : Prop := rmLt p q ∨ p = q

/-- Row-major order on the natural scan coordinates. -/
def rmLtN (a b : ℕ × ℕ) : Prop := a.2 < b.2 ∨ (a.2 = b.2 ∧ a.1 < b.1)

/-- Scan coordinates as a pixel. -/
abbrev castPix (e : ℕ × ℕ) : Pix := ((e.1 : ℤ), (e.2 : ℤ))

theorem mem_fgSet (m : List (List ℕ)) (w h : ℕ) (p : Pix) :
    p ∈ fgSet m w h ↔ 0 ≤ p.1 ∧ p.1 < (w : ℤ) ∧ 0 ≤ p.2 ∧ p.2 < (h : ℤ)
      ∧ maskAt m p.1 p.2 = 1 := by
  unfold fgSet rectC
  rw [Finset.mem_filter, Finset.mem_Icc, Prod.le_def, Prod.le_def]
  constructor
  · rintro ⟨⟨⟨a1, a3⟩, a2, a4⟩, hm⟩
    exact ⟨a1, by omega, a3, by omega, hm⟩
  · rintro ⟨a1, a2, a3, a4, hm⟩
    exact ⟨⟨⟨a1, a3⟩, by omega, by omega⟩, hm⟩

theorem adjacent_symm {p q : Pix} (hadj : adjacent p q) : adjacent q p := by
  obtain ⟨h1, h2, h3⟩ := hadj
  exact ⟨fun hc => h1 hc.symm, by omega, by omega⟩

/-- The flood fill's offset list enumerates exactly the 8-adjacent
positions. -/
theorem adjacent_iff_offset (p r : Pix) :
    adjacent p r ↔ ∃ d ∈ floodOffsets, r = (p.1 + d.1, p.2 + d.2) := by
  constructor
  · rintro ⟨hne, h1, h2⟩
    have hne2 : r.1 - p.1 ≠ 0 ∨ r.2 - p.2 ≠ 0 := by
      by_contra hc
      push_neg at hc
      exact hne (by rw [Prod.ext_iff]; constructor <;> omega)
    have hx : r.1 - p.1 = -1 ∨ r.1 - p.1 = 0 ∨ r.1 - p.1 = 1 := by omega
    have hy : r.2 - p.2 = -1 ∨ r.2 - p.2 = 0 ∨ r.2 - p.2 = 1 := by omega
    rcases hx with h | h | h <;> rcases hy with h' | h' | h'
    · exact ⟨(-1, -1), by simp [floodOffsets],
        by rw [Prod.ext_iff]; constructor <;> dsimp only <;> omega⟩
    · exact ⟨(-1, 0), by simp [floodOffsets],
        by rw [Prod.ext_iff]; constructor <;> dsimp only <;> omega⟩
    · exact ⟨(-1, 1), by simp [floodOffsets],
        by rw [Prod.ext_iff]; constructor <;> dsimp only <;> omega⟩
    · exact ⟨(0, -1), by simp [floodOffsets],
        by rw [Prod.ext_iff]; constructor <;> dsimp only <;> omega⟩
    · exfalso
      rcases hne2 with hz | hz <;> omega
    · exact ⟨(0, 1), by simp [floodOffsets],
        by rw [Prod.ext_iff]; constructor <;> dsimp only <;> omega⟩
    · exact ⟨(1, -1), by simp [floodOffsets],
        by rw [Prod.ext_iff]; constructor <;> dsimp only <;> omega⟩
    · exact ⟨(1, 0), by simp [floodOffsets],
        by rw [Prod.ext_iff]; constructor <;> dsimp only <;> omega⟩
    · exact ⟨(1, 1), by simp [floodOffsets],
        by rw [Prod.ext_iff]; constructor <;> dsimp only <;> omega⟩
  · rintro ⟨d, hd, rfl⟩
    simp only [floodOffsets, List.mem_cons, List.not_mem_nil, or_false] at hd
    unfold adjacent
    rcases hd with rfl | rfl | rfl | rfl | rfl | rfl | rfl | rfl <;>
      exact ⟨by intro hc; rw [Prod.ext_iff] at hc; dsimp only at hc; omega,
        by dsimp only; omega, by dsimp only; omega⟩

theorem reach_mem {S : Finset Pix} {a b : Pix} (ha : a ∈ S)
    (h : reach S a b) : b ∈ S := by
  induction h with
  | refl => exact ha
  | tail hab hstep ih => exact hstep.1

theorem reach_symm {S : Finset Pix} {a b : Pix} (ha : a ∈ S)
    (h : reach S a b) : reach S b a := by
  induction h with
  | refl => exact Relation.ReflTransGen.refl
  | tail hab hstep ih =>
    exact Relation.ReflTransGen.head ⟨reach_mem ha hab, adjacent_symm hstep.2⟩ ih

/-- A set closed under foreground adjacency absorbs everything reachable
from its members. -/
theorem reach_subset_closed {S vis : Finset Pix}
    (hcl : ∀ p ∈ vis, ∀ r, r ∈ S → adjacent p r → r ∈ vis) {s p : Pix}
    (hs : s ∈ vis) (h : reach S s p) : p ∈ vis := by
  induction h with
  | refl => exact hs
  | tail hab hstep ih => exact hcl _ ih _ hstep.1 hstep.2

/-- A foreground region whose seed is unvisited avoids an
adjacency-closed visited set entirely. -/
theorem comp_disjoint_closed {S vis : Finset Pix}
    (hcl : ∀ p ∈ vis, ∀ r, r ∈ S → adjacent p r → r ∈ vis) {s p : Pix}
    (hsS : s ∈ S) (hs : s ∉ vis) (h : reach S s p) : p ∉ vis :=
  fun hp => hs (reach_subset_closed hcl hp (reach_symm hsS h))

theorem rmLt_irrefl (p : Pix) : ¬ rmLt p p := by
  unfold rmLt
  omega

theorem rmLe_antisymm {p q : Pix} (h1 : rmLe p q) (h2 : rmLe q p) : p = q := by
  rcases h1 with h1 | h1
  · rcases h2 with h2 | h2
    · unfold rmLt at h1 h2
      omega
    · exact h2.symm
  · exact h1

theorem castPix_rmLt {a b : ℕ × ℕ} (h : rmLtN a b) :
    rmLt (castPix a) (castPix b) := by
  unfold rmLtN at h
  unfold rmLt castPix
  dsimp only
  omega

/-- Full specification of the inner neighbor fold: the visited set only
grows, exactly the appended entries are newly marked, each new entry is a
fresh in-bounds foreground cell at one of the listed offsets, and every
foreground cell at a listed offset ends up visited. -/
theorem floodNbrs_fold_spec (m : List (List ℕ)) (w h : ℕ) (x y : ℤ) :
    ∀ (l : List Pix) (v : Finset Pix) (a : List Pix),
      v ⊆ (l.foldl (fun s d =>
        let nx := x + d.1
        let ny := y + d.2
        if 0 ≤ nx ∧ nx < (w : ℤ) ∧ 0 ≤ ny ∧ ny < (h : ℤ) ∧
            maskAt m nx ny = 1 ∧ (nx, ny) ∉ s.1 then
          (insert (nx, ny) s.1, s.2 ++ [(nx, ny)])
        else s) (v, a)).1
      ∧ (∃ t, (l.foldl (fun s d =>
        let nx := x + d.1
        let ny := y + d.2
        if 0 ≤ nx ∧ nx < (w : ℤ) ∧ 0 ≤ ny ∧ ny < (h : ℤ) ∧
            maskAt m nx ny = 1 ∧ (nx, ny) ∉ s.1 then
          (insert (nx, ny) s.1, s.2 ++ [(nx, ny)])
        else s) (v, a)).2 = a ++ t
          ∧ (l.foldl (fun s d =>
        let nx := x + d.1
        let ny := y + d.2
        if 0 ≤ nx ∧ nx < (w : ℤ) ∧ 0 ≤ ny ∧ ny < (h : ℤ) ∧
            maskAt m nx ny = 1 ∧ (nx, ny) ∉ s.1 then
          (insert (nx, ny) s.1, s.2 ++ [(nx, ny)])
        else s) (v, a)).1 = v ∪ t.toFinset
          ∧ ∀ r ∈ t, r ∈ fgSet m w h ∧ r ∉ v ∧ ∃ d ∈ l, r = (x + d.1, y + d.2))
      ∧ (∀ r, r ∈ fgSet m w h → (∃ d ∈ l, r = (x + d.1, y + d.2)) →
          r ∈ (l.foldl (fun s d =>
        let nx := x + d.1
        let ny := y + d.2
        if 0 ≤ nx ∧ nx < (w : ℤ) ∧ 0 ≤ ny ∧ ny < (h : ℤ) ∧
            maskAt m nx ny = 1 ∧ (nx, ny) ∉ s.1 then
          (insert (nx, ny) s.1, s.2 ++ [(nx, ny)])
        else s) (v, a)).1) := by
  intro l
  induction l with
  | nil =>
    intro v a
    refine ⟨Finset.Subset.refl v, ⟨[], by simp, by simp, by simp⟩, ?_⟩
    rintro r hr ⟨d, hd, _⟩
    exact absurd hd (List.not_mem_nil d)
  | cons d rest ih =>
    intro v a
    simp only [List.foldl_cons]
    by_cases hc : 0 ≤ x + d.1 ∧ x + d.1 < (w : ℤ) ∧ 0 ≤ y + d.2 ∧ y + d.2 < (h : ℤ) ∧
        maskAt m (x + d.1) (y + d.2) = 1 ∧ (x + d.1, y + d.2) ∉ v
    · simp only [if_pos hc]
      obtain ⟨ih1, ⟨t, ht1, ht2, ht3⟩, ih3⟩ :=
        ih (insert (x + d.1, y + d.2) v) (a ++ [(x + d.1, y + d.2)])
      refine ⟨?_, ⟨(x + d.1, y + d.2) :: t, ?_, ?_, ?_⟩, ?_⟩
      · exact fun z hz => ih1 (Finset.mem_insert_of_mem hz)
      · rw [ht1, List.append_assoc]
        rfl
      · rw [ht2]
        ext z
        simp only [Finset.mem_union, Finset.mem_insert, List.toFinset_cons,
          List.mem_toFinset]
        tauto
      · intro r hr
        rcases List.mem_cons.mp hr with rfl | hr2
        · exact ⟨(mem_fgSet m w h _).mpr
            ⟨hc.1, hc.2.1, hc.2.2.1, hc.2.2.2.1, hc.2.2.2.2.1⟩,
            hc.2.2.2.2.2, d, List.mem_cons_self d rest, rfl⟩
        · obtain ⟨hS, hnv, d2, hd2, heq⟩ := ht3 r hr2
          exact ⟨hS, fun hz => hnv (Finset.mem_insert_of_mem hz),
            d2, List.mem_cons_of_mem d hd2, heq⟩
      · rintro r hr ⟨d2, hd2, rfl⟩
        rcases List.mem_cons.mp hd2 with heq | hd3
        · subst heq
          exact ih1 (Finset.mem_insert_self _ _)
        · exact ih3 _ hr ⟨d2, hd3, rfl⟩
    · simp only [if_neg hc]
      obtain ⟨ih1, ⟨t, ht1, ht2, ht3⟩, ih3⟩ := ih v a
      refine ⟨ih1, ⟨t, ht1, ht2, fun r hr => ?_⟩, ?_⟩
      · obtain ⟨hS, hnv, d2, hd2, heq⟩ := ht3 r hr
        exact ⟨hS, hnv, d2, List.mem_cons_of_mem d hd2, heq⟩
      rintro r hr ⟨d2, hd2, rfl⟩
      rcases List.mem_cons.mp hd2 with heq | hd3
      · subst heq
        have hrv : (x + d2.1, y + d2.2) ∈ v := by
          by_contra hnv
          apply hc
          rw [mem_fgSet] at hr
          exact ⟨hr.1, hr.2.1, hr.2.2.1, hr.2.2.2.1, hr.2.2.2.2, hnv⟩
        exact ih1 hrv
      · exact ih3 _ hr ⟨d2, hd3, rfl⟩

/-- `floodNbrs` as used by the BFS: monotone in the visited set, the new
queue entries are exactly the newly visited cells, these are fresh
foreground neighbors of `(x, y)`, and every unvisited foreground neighbor
of `(x, y)` is picked up. -/
theorem floodNbrs_spec (m : List (List ℕ)) (w h : ℕ) (x y : ℤ)
    (vis : Finset Pix) :
    vis ⊆ (floodNbrs m w h x y vis).1
    ∧ (floodNbrs m w h x y vis).1 = vis ∪ (floodNbrs m w h x y vis).2.toFinset
    ∧ (∀ r ∈ (floodNbrs m w h x y vis).2,
        r ∈ fgSet m w h ∧ r ∉ vis ∧ adjacent (x, y) r)
    ∧ (∀ r, r ∈ fgSet m w h → adjacent (x, y) r →
        r ∈ (floodNbrs m w h x y vis).1) := by
  obtain ⟨h1, ⟨t, ht1, ht2, ht3⟩, h3⟩ :=
    floodNbrs_fold_spec m w h x y floodOffsets vis []
  have ht1' : (floodNbrs m w h x y vis).2 = t := ht1
  refine ⟨h1, ?_, ?_, ?_⟩
  · rw [ht1']
    exact ht2
  · intro r hr
    rw [ht1'] at hr
    obtain ⟨hS, hnv, d2, hd2, heq⟩ := ht3 r hr
    exact ⟨hS, hnv, (adjacent_iff_offset (x, y) r).mpr ⟨d2, hd2, heq⟩⟩
  · intro r hS hadj
    exact h3 r hS ((adjacent_iff_offset (x, y) r).mp hadj)

/-- Full specification of the BFS loop: provided every queued pixel is
already marked visited and every visited pixel that is not pending has
all its foreground neighbors visited, the loop (i) only grows the visited
set, (ii) appends to the blob exactly the queued pixels plus the newly
visited ones, starting with the head of the queue, (iii) leaves the
visited set closed under foreground adjacency, and (iv) visits only
pixels reachable from the queue. -/
theorem floodLoop_spec (m : List (List ℕ)) (w h : ℕ) :
    ∀ (q : List Pix) (vis : Finset Pix) (acc : List Pix),
      (∀ p ∈ q, p ∈ vis) →
      (∀ p ∈ vis, p ∉ q → ∀ r, r ∈ fgSet m w h → adjacent p r → r ∈ vis) →
      vis ⊆ (floodLoop m w h q vis acc).2
      ∧ (∃ t, (floodLoop m w h q vis acc).1 = acc ++ t
          ∧ t.head? = q.head?
          ∧ t.toFinset = q.toFinset ∪ ((floodLoop m w h q vis acc).2 \ vis)
          ∧ (floodLoop m w h q vis acc).2 = vis ∪ t.toFinset)
      ∧ (∀ p ∈ (floodLoop m w h q vis acc).2, ∀ r, r ∈ fgSet m w h →
          adjacent p r → r ∈ (floodLoop m w h q vis acc).2)
      ∧ (∀ p ∈ (floodLoop m w h q vis acc).2,
          p ∈ vis ∨ ∃ z ∈ q, reach (fgSet m w h) z p) := by
  intro q vis acc
  induction q, vis, acc using floodLoop.induct m w h with
  | case1 vis acc =>
    intro hq hcl
    rw [floodLoop]
    refine ⟨Finset.Subset.refl vis, ⟨[], by simp, rfl, by simp, by simp⟩, ?_, ?_⟩
    · intro z hz r hS hadj
      exact hcl z hz (List.not_mem_nil z) r hS hadj
    · exact fun z hz => Or.inl hz
  | case2 p rest vis acc st ih =>
    rw [show st = floodNbrs m w h p.1 p.2 vis from rfl] at ih
    intro hq hcl
    rw [floodLoop]
    obtain ⟨n1, n2, n3, n4⟩ := floodNbrs_spec m w h p.1 p.2 vis
    set F := floodNbrs m w h p.1 p.2 vis with hF
    set FL := floodLoop m w h (rest ++ F.2) F.1 (acc ++ [p]) with hFL
    have hq2 : ∀ z ∈ rest ++ F.2, z ∈ F.1 := by
      intro z hz
      rcases List.mem_append.mp hz with hz1 | hz2
      · exact n1 (hq z (List.mem_cons_of_mem p hz1))
      · rw [n2]
        exact Finset.mem_union_right _ (List.mem_toFinset.mpr hz2)
    have hcl2 : ∀ z ∈ F.1, z ∉ rest ++ F.2 → ∀ r, r ∈ fgSet m w h →
        adjacent z r → r ∈ F.1 := by
      intro z hz hnz r hS hadj
      rw [n2] at hz
      rcases Finset.mem_union.mp hz with hz1 | hz2
      · by_cases hzp : z = p
        · subst hzp
          exact n4 r hS hadj
        · have hznq : z ∉ p :: rest := by
            intro hc
            rcases List.mem_cons.mp hc with h1 | h1
            · exact hzp h1
            · exact hnz (List.mem_append_left _ h1)
          exact n1 (hcl z hz1 hznq r hS hadj)
      · exact absurd (List.mem_append_right rest (List.mem_toFinset.mp hz2)) hnz
    obtain ⟨k1, ⟨t2, kt1, kt2, kt3, kt4⟩, k3, k4⟩ := ih hq2 hcl2
    have e6 : p ∈ vis := hq p (List.mem_cons_self p rest)
    refine ⟨fun z hz => k1 (n1 hz), ⟨p :: t2, ?_, rfl, ?_, ?_⟩, k3, ?_⟩
    · rw [kt1, List.append_assoc]
      rfl
    · ext z
      have e1 : z ∈ t2 ↔ (z ∈ rest ∨ z ∈ F.2) ∨ (z ∈ FL.2 ∧ z ∉ F.1) := by
        rw [← List.mem_toFinset, kt3]
        simp only [List.toFinset_append, Finset.mem_union, Finset.mem_sdiff,
          List.mem_toFinset]
      have e2 : z ∈ F.1 ↔ z ∈ vis ∨ z ∈ F.2 := by
        rw [n2]
        simp only [Finset.mem_union, List.mem_toFinset]
      have e3 : z ∈ F.2 → z ∉ vis := fun hz => (n3 z hz).2.1
      have e5 : z ∈ rest → z ∈ vis := fun hz => hq z (List.mem_cons_of_mem p hz)
      simp only [List.toFinset_cons, Finset.mem_insert, List.mem_toFinset,
        Finset.mem_union, Finset.mem_sdiff]
      constructor
      · rintro (rfl | hz)
        · exact Or.inl (Or.inl rfl)
        · rcases e1.mp hz with (h1 | h1) | h1
          · exact Or.inl (Or.inr h1)
          · exact Or.inr ⟨k1 (e2.mpr (Or.inr h1)), e3 h1⟩
          · exact Or.inr ⟨h1.1, fun hzv => h1.2 (e2.mpr (Or.inl hzv))⟩
      · rintro ((rfl | hz) | ⟨hz2, hznv⟩)
        · exact Or.inl rfl
        · exact Or.inr (e1.mpr (Or.inl (Or.inl hz)))
        · by_cases hzf : z ∈ F.1
          · rcases e2.mp hzf with h1 | h1
            · exact absurd h1 hznv
            · exact Or.inr (e1.mpr (Or.inl (Or.inr h1)))
          · exact Or.inr (e1.mpr (Or.inr ⟨hz2, hzf⟩))
    · ext z
      have e1 : z ∈ t2 ↔ (z ∈ rest ∨ z ∈ F.2) ∨ (z ∈ FL.2 ∧ z ∉ F.1) := by
        rw [← List.mem_toFinset, kt3]
        simp only [List.toFinset_append, Finset.mem_union, Finset.mem_sdiff,
          List.mem_toFinset]
      have e2 : z ∈ F.1 ↔ z ∈ vis ∨ z ∈ F.2 := by
        rw [n2]
        simp only [Finset.mem_union, List.mem_toFinset]
      have e7 : z ∈ FL.2 ↔ z ∈ F.1 ∨ z ∈ t2 := by
        rw [kt4]
        simp only [Finset.mem_union, List.mem_toFinset]
      simp only [Finset.mem_union, List.toFinset_cons, Finset.mem_insert,
        List.mem_toFinset]
      constructor
      · intro hz
        rcases e7.mp hz with h1 | h1
        · rcases e2.mp h1 with h2 | h2
          · exact Or.inl h2
          · exact Or.inr (Or.inr (e1.mpr (Or.inl (Or.inr h2))))
        · exact Or.inr (Or.inr h1)
      · rintro (hz | (rfl | hz))
        · exact e7.mpr (Or.inl (n1 hz))
        · exact e7.mpr (Or.inl (n1 e6))
        · exact e7.mpr (Or.inr hz)
    · intro z hz
      rcases k4 z hz with hz1 | ⟨x2, hx2, hreach⟩
      · rw [n2] at hz1
        rcases Finset.mem_union.mp hz1 with h1 | h1
        · exact Or.inl h1
        · have hn := n3 z (List.mem_toFinset.mp h1)
          exact Or.inr ⟨p, List.mem_cons_self p rest,
            Relation.ReflTransGen.single ⟨hn.1, hn.2.2⟩⟩
      · rcases List.mem_append.mp hx2 with h1 | h1
        · exact Or.inr ⟨x2, List.mem_cons_of_mem p h1, hreach⟩
        · have hn := n3 x2 h1
          exact Or.inr ⟨p, List.mem_cons_self p rest,
            Relation.ReflTransGen.head ⟨hn.1, hn.2.2⟩ hreach⟩

/-- Specification of `floodFill` at an unvisited foreground seed, given a
visited set closed under foreground adjacency: the blob starts with the
seed, its members are exactly the seed's maximal 8-connected foreground
region, and the visited set grows by exactly the blob and stays closed. -/
theorem floodFill_spec (m : List (List ℕ)) (w h : ℕ) (s : Pix)
    (vis : Finset Pix) (hsS : s ∈ fgSet m w h) (hsv : s ∉ vis)
    (hcl : ∀ p ∈ vis, ∀ r, r ∈ fgSet m w h → adjacent p r → r ∈ vis) :
    (∃ t, (floodFill m s.1 s.2 w h vis).1 = s :: t)
    ∧ (∀ p, p ∈ (floodFill m s.1 s.2 w h vis).1 ↔ reach (fgSet m w h) s p)
    ∧ (floodFill m s.1 s.2 w h vis).2
        = vis ∪ (floodFill m s.1 s.2 w h vis).1.toFinset
    ∧ (∀ p ∈ (floodFill m s.1 s.2 w h vis).2, ∀ r, r ∈ fgSet m w h →
        adjacent p r → r ∈ (floodFill m s.1 s.2 w h vis).2) := by
  have hdef : floodFill m s.1 s.2 w h vis
      = floodLoop m w h [s] (insert s vis) [] := rfl
  have hq : ∀ z ∈ [s], z ∈ insert s vis := by
    intro z hz
    rw [List.mem_singleton.mp hz]
    exact Finset.mem_insert_self s vis
  have hcl1 : ∀ z ∈ insert s vis, z ∉ [s] → ∀ r, r ∈ fgSet m w h →
      adjacent z r → r ∈ insert s vis := by
    intro z hz hnz r hS hadj
    rcases Finset.mem_insert.mp hz with rfl | hz2
    · exact absurd (List.mem_singleton.mpr rfl) hnz
    · exact Finset.mem_insert_of_mem (hcl z hz2 r hS hadj)
  obtain ⟨k1, ⟨t2, kt1, kt2, kt3, kt4⟩, k3, k4⟩ :=
    floodLoop_spec m w h [s] (insert s vis) [] hq hcl1
  rw [hdef]
  set FL := floodLoop m w h [s] (insert s vis) [] with hFL
  rw [List.nil_append] at kt1
  have hhead : t2.head? = some s := kt2
  have hne : t2 ≠ [] := by
    intro hc
    rw [hc] at hhead
    simp at hhead
  have hst2 : s ∈ t2 := List.mem_of_mem_head? hhead
  obtain ⟨a, t3, ht23⟩ := List.exists_cons_of_ne_nil hne
  have has : a = s := by
    rw [ht23] at hhead
    simpa using hhead
  rw [has] at ht23
  have hiff : ∀ p, p ∈ FL.1 ↔ reach (fgSet m w h) s p := by
    intro p
    rw [kt1]
    constructor
    · intro hp
      have hp2 : p ∈ t2.toFinset := List.mem_toFinset.mpr hp
      rw [kt3] at hp2
      rcases Finset.mem_union.mp hp2 with h1 | h1
      · have hps : p = s := by simpa using h1
        subst hps
        exact Relation.ReflTransGen.refl
      · obtain ⟨hpF, hpn⟩ := Finset.mem_sdiff.mp h1
        rcases k4 p hpF with h2 | ⟨z, hz, hr⟩
        · exact absurd h2 hpn
        · have hzs : z = s := by simpa using hz
          subst hzs
          exact hr
    · intro hr
      have hpF : p ∈ FL.2 :=
        reach_subset_closed k3 (k1 (Finset.mem_insert_self s vis)) hr
      rw [kt4] at hpF
      rcases Finset.mem_union.mp hpF with h1 | h1
      · rcases Finset.mem_insert.mp h1 with rfl | h2
        · exact hst2
        · exact absurd h2 (comp_disjoint_closed hcl hsS hsv hr)
      · exact List.mem_toFinset.mp h1
  have hveq : FL.2 = vis ∪ FL.1.toFinset := by
    rw [kt4, kt1]
    ext z
    simp only [Finset.mem_union, Finset.mem_insert, List.mem_toFinset]
    constructor
    · rintro ((rfl | h1) | h1)
      · exact Or.inr hst2
      · exact Or.inl h1
      · exact Or.inr h1
    · rintro (h1 | h1)
      · exact Or.inl (Or.inr h1)
      · exact Or.inr h1
  exact ⟨⟨t3, by rw [kt1, ht23]⟩, hiff, hveq, k3⟩

theorem fgSet_subset_rect (m : List (List ℕ)) (w h : ℕ) :
    fgSet m w h ⊆ rectC w h :=
  Finset.filter_subset _ _

theorem scanOrder_mem (w h : ℕ) (e : ℕ × ℕ) :
    e ∈ scanOrder w h ↔ e.1 < w ∧ e.2 < h := by
  unfold scanOrder
  rw [List.mem_flatMap]
  constructor
  · rintro ⟨y, hy, he⟩
    rw [List.mem_map] at he
    obtain ⟨x, hx, rfl⟩ := he
    rw [List.mem_range] at hy
    rw [List.mem_range] at hx
    exact ⟨hx, hy⟩
  · rintro ⟨h1, h2⟩
    exact ⟨e.2, List.mem_range.mpr h2,
      List.mem_map.mpr ⟨e.1, List.mem_range.mpr h1, by rw [Prod.mk.eta]⟩⟩

/-- The scan visits positions in strictly increasing row-major order. -/
theorem scanOrder_pairwise (w h : ℕ) : (scanOrder w h).Pairwise rmLtN := by
  unfold scanOrder
  rw [List.pairwise_flatMap]
  constructor
  · intro y hy
    rw [List.pairwise_map]
    apply List.Pairwise.imp ?_ (List.pairwise_lt_range w)
    intro a b hab
    exact Or.inr ⟨rfl, hab⟩
  · apply List.Pairwise.imp ?_ (List.pairwise_lt_range h)
    intro y1 y2 hlt x1 hx1 x2 hx2
    rw [List.mem_map] at hx1
    rw [List.mem_map] at hx2
    obtain ⟨a, _, rfl⟩ := hx1
    obtain ⟨b, _, rfl⟩ := hx2
    exact Or.inl hlt

/-- Every in-bounds pixel is a scan position. -/
theorem scanOrder_covers (w h : ℕ) (p : Pix) (hp : p ∈ rectC w h) :
    ∃ e ∈ scanOrder w h, castPix e = p := by
  rw [rectC, Finset.mem_Icc, Prod.le_def, Prod.le_def] at hp
  obtain ⟨⟨a1, a3⟩, a2, a4⟩ := hp
  refine ⟨(p.1.toNat, p.2.toNat), ?_, ?_⟩
  · rw [scanOrder_mem]
    constructor <;> dsimp only <;> omega
  · unfold castPix
    dsimp only
    rw [Int.toNat_of_nonneg a1, Int.toNat_of_nonneg a3, Prod.mk.eta]

theorem headI_of_head_eq (b : List Pix) (sd : Pix) (hh : b.head? = some sd) :
    b.headI = sd := by
  cases b with
  | nil => simp at hh
  | cons a t =>
    simp only [List.head?_cons, Option.some.injEq] at hh
    exact hh

/-- The scan-fold invariant of `findContours`: if the visited set is
closed under foreground adjacency and equals the union of the collected
blobs, every foreground pixel is visited or still ahead in the scan, the
remaining scan positions are in-bounds, strictly row-major ordered and
after every collected blob's head, and every collected blob is a region
with a row-major-minimal head, then all of this holds of the final state,
and at the end every foreground pixel is visited. -/
theorem findContours_fold (m : List (List ℕ)) (w h : ℕ) :
    ∀ (l : List (ℕ × ℕ)) (vis : Finset Pix) (bs : List (List Pix)),
      (∀ p ∈ vis, ∀ r, r ∈ fgSet m w h → adjacent p r → r ∈ vis) →
      (∀ p ∈ fgSet m w h, p ∈ vis ∨ ∃ e ∈ l, castPix e = p) →
      (∀ e ∈ l, e.1 < w ∧ e.2 < h) →
      l.Pairwise rmLtN →
      (∀ b ∈ bs, ∀ e ∈ l, rmLt b.headI (castPix e)) →
      (∀ p : Pix, p ∈ vis ↔ ∃ b ∈ bs, p ∈ b) →
      (∀ b ∈ bs, ∃ sd, b.head? = some sd ∧ sd ∈ fgSet m w h
          ∧ (∀ p, p ∈ b ↔ reach (fgSet m w h) sd p)
          ∧ (∀ p ∈ b, rmLe sd p)) →
      List.Pairwise (fun b1 b2 => rmLt b1.headI b2.headI) bs →
      (∀ p ∈ fgSet m w h, p ∈ (l.foldl (fun st p =>
        if maskAt m p.1 p.2 = 1 ∧ ((p.1 : ℤ), (p.2 : ℤ)) ∉ st.1 then
          let r := floodFill m p.1 p.2 w h st.1
          (r.2, st.2 ++ [r.1])
        else st) (vis, bs)).1)
      ∧ (∀ p : Pix, p ∈ (l.foldl (fun st p =>
        if maskAt m p.1 p.2 = 1 ∧ ((p.1 : ℤ), (p.2 : ℤ)) ∉ st.1 then
          let r := floodFill m p.1 p.2 w h st.1
          (r.2, st.2 ++ [r.1])
        else st) (vis, bs)).1 ↔ ∃ b ∈ (l.foldl (fun st p =>
        if maskAt m p.1 p.2 = 1 ∧ ((p.1 : ℤ), (p.2 : ℤ)) ∉ st.1 then
          let r := floodFill m p.1 p.2 w h st.1
          (r.2, st.2 ++ [r.1])
        else st) (vis, bs)).2, p ∈ b)
      ∧ (∀ b ∈ (l.foldl (fun st p =>
        if maskAt m p.1 p.2 = 1 ∧ ((p.1 : ℤ), (p.2 : ℤ)) ∉ st.1 then
          let r := floodFill m p.1 p.2 w h st.1
          (r.2, st.2 ++ [r.1])
        else st) (vis, bs)).2, ∃ sd, b.head? = some sd ∧ sd ∈ fgSet m w h
          ∧ (∀ p, p ∈ b ↔ reach (fgSet m w h) sd p)
          ∧ (∀ p ∈ b, rmLe sd p))
      ∧ List.Pairwise (fun b1 b2 => rmLt b1.headI b2.headI) (l.foldl (fun st p =>
        if maskAt m p.1 p.2 = 1 ∧ ((p.1 : ℤ), (p.2 : ℤ)) ∉ st.1 then
          let r := floodFill m p.1 p.2 w h st.1
          (r.2, st.2 ++ [r.1])
        else st) (vis, bs)).2 := by
  intro l
  induction l with
  | nil =>
    intro vis bs hA hB hR hP hD hU hC hO
    refine ⟨?_, hU, hC, hO⟩
    intro p hp
    rcases hB p hp with h1 | ⟨e, he, _⟩
    · exact h1
    · exact absurd he (List.not_mem_nil e)
  | cons e rest ih =>
    intro vis bs hA hB hR hP hD hU hC hO
    simp only [List.foldl_cons]
    split
    · rename_i hc
      obtain ⟨hb1, hb2⟩ := hR e (List.mem_cons_self e rest)
      have hsS : castPix e ∈ fgSet m w h := by
        rw [mem_fgSet]
        refine ⟨?_, ?_, ?_, ?_, hc.1⟩
        · show (0 : ℤ) ≤ (e.1 : ℤ)
          omega
        · show (e.1 : ℤ) < (w : ℤ)
          omega
        · show (0 : ℤ) ≤ (e.2 : ℤ)
          omega
        · show (e.2 : ℤ) < (h : ℤ)
          omega
      have hsv : castPix e ∉ vis := hc.2
      obtain ⟨⟨t3, hblob⟩, hbiff, hbvis, hbcl⟩ :=
        floodFill_spec m w h (castPix e) vis hsS hsv hA
      have hcv : floodFill m (castPix e).1 (castPix e).2 w h vis
          = floodFill m (e.1 : ℤ) (e.2 : ℤ) w h vis := rfl
      rw [hcv] at hblob hbiff hbvis hbcl
      set FF := floodFill m (e.1 : ℤ) (e.2 : ℤ) w h vis with hFF
      have hB2 : ∀ p ∈ fgSet m w h, p ∈ FF.2 ∨ ∃ e2 ∈ rest, castPix e2 = p := by
        intro p hp
        rcases hB p hp with h1 | ⟨e2, he2, heq⟩
        · left
          rw [hbvis]
          exact Finset.mem_union_left _ h1
        · rcases List.mem_cons.mp he2 with h2 | h2
          · rw [h2] at heq
            left
            rw [hbvis]
            refine Finset.mem_union_right _ (List.mem_toFinset.mpr ?_)
            rw [← heq]
            exact (hbiff (castPix e)).mpr Relation.ReflTransGen.refl
          · exact Or.inr ⟨e2, h2, heq⟩
      have hPe : ∀ e2 ∈ rest, rmLtN e e2 := (List.pairwise_cons.mp hP).1
      have hheadFF : FF.1.headI = castPix e := by
        rw [hblob]
        rfl
      have hD2 : ∀ b ∈ bs ++ [FF.1], ∀ e2 ∈ rest, rmLt b.headI (castPix e2) := by
        intro b hb e2 he2
        rcases List.mem_append.mp hb with h1 | h1
        · exact hD b h1 e2 (List.mem_cons_of_mem e he2)
        · rw [List.mem_singleton.mp h1, hheadFF]
          exact castPix_rmLt (hPe e2 he2)
      have hU2 : ∀ p : Pix, p ∈ FF.2 ↔ ∃ b ∈ bs ++ [FF.1], p ∈ b := by
        intro p
        rw [hbvis]
        constructor
        · intro hp
          rcases Finset.mem_union.mp hp with h1 | h1
          · obtain ⟨b, hb, hpb⟩ := (hU p).mp h1
            exact ⟨b, List.mem_append_left _ hb, hpb⟩
          · exact ⟨FF.1, List.mem_append_right _ (List.mem_singleton.mpr rfl),
              List.mem_toFinset.mp h1⟩
        · rintro ⟨b, hb, hpb⟩
          rcases List.mem_append.mp hb with h1 | h1
          · exact Finset.mem_union_left _ ((hU p).mpr ⟨b, h1, hpb⟩)
          · rw [List.mem_singleton.mp h1] at hpb
            exact Finset.mem_union_right _ (List.mem_toFinset.mpr hpb)
      have hmin : ∀ p ∈ FF.1, rmLe (castPix e) p := by
        intro p hp
        have hr := (hbiff p).mp hp
        have hpS : p ∈ fgSet m w h := reach_mem hsS hr
        have hpnv : p ∉ vis := comp_disjoint_closed hA hsS hsv hr
        rcases hB p hpS with h1 | ⟨e2, he2, heq⟩
        · exact absurd h1 hpnv
        · rcases List.mem_cons.mp he2 with h2 | h2
          · rw [h2] at heq
            exact Or.inr heq
          · rw [← heq]
            exact Or.inl (castPix_rmLt (hPe e2 h2))
      have hC2 : ∀ b ∈ bs ++ [FF.1], ∃ sd, b.head? = some sd
          ∧ sd ∈ fgSet m w h ∧ (∀ p, p ∈ b ↔ reach (fgSet m w h) sd p)
          ∧ (∀ p ∈ b, rmLe sd p) := by
        intro b hb
        rcases List.mem_append.mp hb with h1 | h1
        · exact hC b h1
        · rw [List.mem_singleton.mp h1]
          exact ⟨castPix e, by rw [hblob]; rfl, hsS, hbiff, hmin⟩
      have hO2 : List.Pairwise (fun b1 b2 => rmLt b1.headI b2.headI)
          (bs ++ [FF.1]) := by
        rw [List.pairwise_append]
        refine ⟨hO, List.pairwise_singleton _ _, ?_⟩
        intro b1 hb1 b2 hb2
        rw [List.mem_singleton.mp hb2, hheadFF]
        exact hD b1 hb1 e (List.mem_cons_self e rest)
      exact ih FF.2 (bs ++ [FF.1]) hbcl hB2
        (fun e2 he2 => hR e2 (List.mem_cons_of_mem e he2))
        (List.pairwise_cons.mp hP).2 hD2 hU2 hC2 hO2
    · rename_i hc
      have hB2 : ∀ p ∈ fgSet m w h, p ∈ vis ∨ ∃ e2 ∈ rest, castPix e2 = p := by
        intro p hp
        rcases hB p hp with h1 | ⟨e2, he2, heq⟩
        · exact Or.inl h1
        · rcases List.mem_cons.mp he2 with h2 | h2
          · rw [h2] at heq
            left
            by_contra hnv
            apply hc
            constructor
            · rw [← heq] at hp
              rw [mem_fgSet] at hp
              exact hp.2.2.2.2
            · show castPix e ∉ vis
              rw [heq]
              exact hnv
          · exact Or.inr ⟨e2, h2, heq⟩
      exact ih vis bs hA hB2
        (fun e2 he2 => hR e2 (List.mem_cons_of_mem e he2))
        (List.pairwise_cons.mp hP).2
        (fun b hb e2 he2 => hD b hb e2 (List.mem_cons_of_mem e he2)) hU hC hO

/-- The extraction contract of `findContours`: every foreground pixel is
in some returned blob; every returned blob is exactly the maximal
8-connected foreground region of its first pixel, which is row-major
minimal in it; and the blobs are listed in strictly increasing row-major
order of their first pixels. -/
theorem findContours_spec (m : List (List ℕ)) (w h : ℕ) :
    (∀ p ∈ fgSet m w h, ∃ b ∈ findContours m w h, p ∈ b)
    ∧ (∀ b ∈ findContours m w h, ∃ sd, b.head? = some sd ∧ sd ∈ fgSet m w h
        ∧ (∀ p, p ∈ b ↔ reach (fgSet m w h) sd p) ∧ (∀ p ∈ b, rmLe sd p))
    ∧ (findContours m w h).Pairwise (fun b1 b2 => rmLt b1.headI b2.headI) := by
  have hB0 : ∀ p ∈ fgSet m w h,
      p ∈ (∅ : Finset Pix) ∨ ∃ e ∈ scanOrder w h, castPix e = p := by
    intro p hp
    exact Or.inr (scanOrder_covers w h p (fgSet_subset_rect m w h hp))
  obtain ⟨c1, c2, c3, c4⟩ := findContours_fold m w h (scanOrder w h) ∅ []
    (by simp) hB0 (fun e he => (scanOrder_mem w h e).mp he)
    (scanOrder_pairwise w h) (by simp) (by simp) (by simp) (by simp)
  exact ⟨fun p hp => (c2 p).mp (c1 p hp), c3, c4⟩

/-- Claim C6: component extraction returns one blob per maximal
8-connected foreground region — each returned blob is exactly the region
of its first pixel, which is the region's topmost-then-leftmost pixel —
every foreground pixel appears in exactly one returned blob (coverage
plus pairwise disjointness), and the blobs are listed in row-major scan
order of their first pixels. -/
theorem c6_components (m : List (List ℕ)) (w h : ℕ) :
    (∀ b ∈ findContours m w h, ∃ sd ∈ fgSet m w h, b.head? = some sd
        ∧ (∀ p, p ∈ b ↔ reach (fgSet m w h) sd p) ∧ (∀ p ∈ b, rmLe sd p))
    ∧ (∀ p ∈ fgSet m w h, ∃ b ∈ findContours m w h, p ∈ b)
    ∧ (findContours m w h).Pairwise (fun b1 b2 => ∀ p, p ∈ b1 → p ∉ b2)
    ∧ (findContours m w h).Pairwise (fun b1 b2 => rmLt b1.headI b2.headI) := by
  obtain ⟨c1, c2, c3⟩ := findContours_spec m w h
  refine ⟨?_, c1, ?_, c3⟩
  · intro b hb
    obtain ⟨sd, h1, h2, h3, h4⟩ := c2 b hb
    exact ⟨sd, h2, h1, h3, h4⟩
  · apply List.Pairwise.imp_of_mem ?_ c3
    intro b1 b2 hb1 hb2 hlt p hp1 hp2
    obtain ⟨sd1, e1, f1, g1, m1⟩ := c2 b1 hb1
    obtain ⟨sd2, e2, f2, g2, m2⟩ := c2 b2 hb2
    have hr1 : reach (fgSet m w h) sd1 p := (g1 p).mp hp1
    have hr2 : reach (fgSet m w h) sd2 p := (g2 p).mp hp2
    have h12 : reach (fgSet m w h) sd1 sd2 :=
      Relation.ReflTransGen.trans hr1 (reach_symm f2 hr2)
    have h21 : reach (fgSet m w h) sd2 sd1 :=
      Relation.ReflTransGen.trans hr2 (reach_symm f1 hr1)
    have hs2b1 : sd2 ∈ b1 := (g1 sd2).mpr h12
    have hs1b2 : sd1 ∈ b2 := (g2 sd1).mpr h21
    have heq : sd1 = sd2 := rmLe_antisymm (m1 sd2 hs2b1) (m2 sd1 hs1b2)
    rw [headI_of_head_eq b1 sd1 e1, headI_of_head_eq b2 sd2 e2, heq] at hlt
    exact rmLt_irrefl sd2 hlt

end ShapeDet
